import Mathlib

/-!
Verification development for the quantum gate-algebra and circuit-unitary
composition core of the repository (`packages/python-worker/src/quantum.py`).

The Python source works with dense `numpy` arrays of machine complex floats.
We model complex floats exactly by `ℂ`, state vectors by functions/lists of
`ℂ`, and matrices by `Matrix (Fin d) (Fin d) ℂ`.  Python's arbitrary-precision
integer bit operations (`>>`, `&`, `|`, `~`, `<<`) on the nonnegative values
occurring in the source are modelled by the corresponding `ℕ` operations;
`i & ~m` (with `m` a union of single-bit masks and `i ≥ 0`) is modelled as
`i - (i &&& m)`, which agrees with Python's two's-complement semantics because
`i &&& m` has exactly the masked-out bits of `i`.  Functions that can raise
exceptions are modelled with `Option`/`Except` result types.
-/

open Matrix Complex Real

noncomputable section

/-! ### Bit-manipulation groundwork

`bit_at x p` embeds the Python expression `(x >> p) & 1`; `clear1 x t`
embeds `x & ~(1 << t)` and `clear2 x c t` embeds `x & ~((1 << c) | (1 << t))`
(for nonnegative `x`, as in the source loops). -/

def bit_at (x p : ℕ) : ℕ := (x >>> p) &&& 1

def clear1 (x t : ℕ) : ℕ := x - (x &&& (1 <<< t))

def clear2 (x c t : ℕ) : ℕ := x - (x &&& ((1 <<< c) ||| (1 <<< t)))

lemma bit_at_eq_div_mod (x p : ℕ) : bit_at x p = x / 2 ^ p % 2 := by
  simp [bit_at, Nat.shiftRight_eq_div_pow, Nat.and_one_is_mod]

lemma bit_at_lt_two (x p : ℕ) : bit_at x p < 2 := by
  rw [bit_at_eq_div_mod]; exact Nat.mod_lt _ (by norm_num)

lemma bit_at_eq_toNat_testBit (x p : ℕ) : bit_at x p = (x.testBit p).toNat := by
  rw [bit_at_eq_div_mod, Nat.testBit_to_div_mod]
  rcases Nat.mod_two_eq_zero_or_one (x / 2 ^ p) with h | h <;> simp [h]

lemma and_one_shiftLeft (x t : ℕ) : x &&& (1 <<< t) = 2 ^ t * bit_at x t := by
  rw [Nat.one_shiftLeft, Nat.and_two_pow, bit_at_eq_toNat_testBit, Nat.mul_comm]

lemma clear1_eq_sub (x t : ℕ) : clear1 x t = x - 2 ^ t * bit_at x t := by
  rw [clear1, and_one_shiftLeft]

/-- Canonical decomposition of a natural number around bit `t`. -/
lemma decomp1 (x t : ℕ) :
    x = 2 ^ (t + 1) * (x / 2 ^ (t + 1)) + 2 ^ t * bit_at x t + x % 2 ^ t := by
  have h1 : x = 2 ^ (t + 1) * (x / 2 ^ (t + 1)) + x % 2 ^ (t + 1) :=
    (Nat.div_add_mod x (2 ^ (t + 1))).symm
  have h2 : x % 2 ^ (t + 1) = x % 2 ^ t + 2 ^ t * (x / 2 ^ t % 2) := by
    rw [pow_succ]; exact Nat.mod_mul
  rw [bit_at_eq_div_mod]; omega

lemma comp1_div {t b r : ℕ} (hb : b < 2) (hr : r < 2 ^ t) (q : ℕ) :
    (2 ^ (t + 1) * q + 2 ^ t * b + r) / 2 ^ (t + 1) = q := by
  have hpos : 0 < 2 ^ (t + 1) := Nat.pos_pow_of_pos _ (by norm_num)
  have hsmall : 2 ^ t * b + r < 2 ^ (t + 1) := by
    have h2 : 2 ^ (t + 1) = 2 ^ t + 2 ^ t := by rw [pow_succ]; ring
    have hble : 2 ^ t * b ≤ 2 ^ t := by
      interval_cases b <;> omega
    omega
  rw [Nat.add_assoc, Nat.mul_add_div hpos, Nat.div_eq_of_lt hsmall, Nat.add_zero]

lemma comp1_bit {t b r : ℕ} (hb : b < 2) (hr : r < 2 ^ t) (q : ℕ) :
    bit_at (2 ^ (t + 1) * q + 2 ^ t * b + r) t = b := by
  have hpos : 0 < 2 ^ t := Nat.pos_pow_of_pos _ (by norm_num)
  have hdiv : (2 ^ (t + 1) * q + 2 ^ t * b + r) / 2 ^ t = 2 * q + b := by
    have h : 2 ^ (t + 1) * q + 2 ^ t * b + r = 2 ^ t * (2 * q + b) + r := by
      rw [pow_succ]; ring
    rw [h, Nat.mul_add_div hpos, Nat.div_eq_of_lt hr, Nat.add_zero]
  rw [bit_at_eq_div_mod, hdiv]; omega

lemma comp1_mod {t b r : ℕ} (hr : r < 2 ^ t) (q : ℕ) :
    (2 ^ (t + 1) * q + 2 ^ t * b + r) % 2 ^ t = r := by
  have h : 2 ^ (t + 1) * q + 2 ^ t * b + r = 2 ^ t * (2 * q + b) + r := by
    rw [pow_succ]; ring
  rw [h, Nat.mul_add_mod, Nat.mod_eq_of_lt hr]

lemma clear1_decomp (x t : ℕ) :
    clear1 x t = 2 ^ (t + 1) * (x / 2 ^ (t + 1)) + x % 2 ^ t := by
  have h := decomp1 x t
  rw [clear1_eq_sub]; omega

lemma comp1_clear {t b r : ℕ} (hb : b < 2) (hr : r < 2 ^ t) (q : ℕ) :
    clear1 (2 ^ (t + 1) * q + 2 ^ t * b + r) t = 2 ^ (t + 1) * q + r := by
  rw [clear1_eq_sub, comp1_bit hb hr q]; omega

/-- `clear1`-equality is equality of the bits above `t` and below `t`. -/
lemma clear1_eq_iff (x y t : ℕ) :
    clear1 x t = clear1 y t ↔
      x / 2 ^ (t + 1) = y / 2 ^ (t + 1) ∧ x % 2 ^ t = y % 2 ^ t := by
  have hpos : 0 < 2 ^ (t + 1) := Nat.pos_pow_of_pos _ (by norm_num)
  have key : ∀ z : ℕ, clear1 z t / 2 ^ (t + 1) = z / 2 ^ (t + 1) ∧
      clear1 z t % 2 ^ (t + 1) = z % 2 ^ t := by
    intro z
    have hrz : z % 2 ^ t < 2 ^ (t + 1) := by
      have h1 : z % 2 ^ t < 2 ^ t := Nat.mod_lt _ (Nat.pos_pow_of_pos _ (by norm_num))
      have h2 : (2 : ℕ) ^ t ≤ 2 ^ (t + 1) := Nat.pow_le_pow_right (by norm_num) (by omega)
      omega
    constructor
    · rw [clear1_decomp, Nat.mul_add_div hpos, Nat.div_eq_of_lt hrz, Nat.add_zero]
    · rw [clear1_decomp, Nat.mul_add_mod, Nat.mod_eq_of_lt hrz]
  constructor
  · intro h
    have hx := key x
    have hy := key y
    rw [h] at hx
    exact ⟨hx.1.symm.trans hy.1, hx.2.symm.trans hy.2⟩
  · intro ⟨h1, h2⟩
    rw [clear1_decomp, clear1_decomp, h1, h2]

lemma recon1 (x t : ℕ) : x = clear1 x t + 2 ^ t * bit_at x t := by
  have h := decomp1 x t
  have h2 := clear1_decomp x t
  omega

lemma clear1_le (x t : ℕ) : clear1 x t ≤ x := Nat.sub_le _ _

/-- Adding a bit value `β` at position `t` on top of `clear1 x t`. -/
lemma clear1_add_bit {x t β : ℕ} (hβ : β < 2) :
    clear1 (clear1 x t + 2 ^ t * β) t = clear1 x t ∧
      bit_at (clear1 x t + 2 ^ t * β) t = β := by
  have hr : x % 2 ^ t < 2 ^ t := Nat.mod_lt _ (Nat.pos_pow_of_pos _ (by norm_num))
  have hform : clear1 x t + 2 ^ t * β =
      2 ^ (t + 1) * (x / 2 ^ (t + 1)) + 2 ^ t * β + x % 2 ^ t := by
    rw [clear1_decomp]; ring
  constructor
  · rw [hform, comp1_clear hβ hr, clear1_decomp x t]
  · rw [hform, comp1_bit hβ hr]

lemma clear1_add_bit_lt {n x t β : ℕ} (hx : x < 2 ^ n) (ht : t < n) (hβ : β < 2) :
    clear1 x t + 2 ^ t * β < 2 ^ n := by
  have hr : x % 2 ^ t < 2 ^ t := Nat.mod_lt _ (Nat.pos_pow_of_pos _ (by norm_num))
  have hq : x / 2 ^ (t + 1) < 2 ^ (n - (t + 1)) := by
    rw [Nat.div_lt_iff_lt_mul (Nat.pos_pow_of_pos _ (by norm_num))]
    calc x < 2 ^ n := hx
    _ = 2 ^ (n - (t + 1)) * 2 ^ (t + 1) := by
        rw [← pow_add]; congr 1; omega
  have hsplit : 2 ^ n = 2 ^ (t + 1) * 2 ^ (n - (t + 1)) := by
    rw [← pow_add]; congr 1; omega
  have hstep : clear1 x t + 2 ^ t * β < 2 ^ (t + 1) * (x / 2 ^ (t + 1) + 1) := by
    rw [clear1_decomp]
    have h1 : 2 ^ t * β + x % 2 ^ t < 2 ^ (t + 1) := by
      have : 2 ^ (t + 1) = 2 ^ t + 2 ^ t := by rw [pow_succ]; ring
      interval_cases β <;> omega
    have h2 : 2 ^ (t + 1) * (x / 2 ^ (t + 1) + 1) =
        2 ^ (t + 1) * (x / 2 ^ (t + 1)) + 2 ^ (t + 1) := by ring
    omega
  calc clear1 x t + 2 ^ t * β < 2 ^ (t + 1) * (x / 2 ^ (t + 1) + 1) := hstep
  _ ≤ 2 ^ (t + 1) * 2 ^ (n - (t + 1)) := Nat.mul_le_mul_left _ (by omega)
  _ = 2 ^ n := hsplit.symm

/-- The spec-level reading of the mask test: `clear1 x t = clear1 y t` iff
`x` and `y` agree on every bit other than `t`. -/
lemma clear1_eq_iff_testBit (x y t : ℕ) :
    clear1 x t = clear1 y t ↔ ∀ b, b ≠ t → x.testBit b = y.testBit b := by
  rw [clear1_eq_iff]
  constructor
  · intro ⟨hd, hm⟩ b hb
    rcases Nat.lt_or_ge b t with hbt | hbt
    · have h1 : (x % 2 ^ t).testBit b = (y % 2 ^ t).testBit b := by rw [hm]
      simpa [Nat.testBit_mod_two_pow, hbt] using h1
    · have hbt' : t + 1 ≤ b := by omega
      have h1 : (x / 2 ^ (t + 1)).testBit (b - (t + 1)) =
          (y / 2 ^ (t + 1)).testBit (b - (t + 1)) := by rw [hd]
      rw [← Nat.shiftRight_eq_div_pow, ← Nat.shiftRight_eq_div_pow] at h1
      rw [Nat.testBit_shiftRight, Nat.testBit_shiftRight] at h1
      have : t + 1 + (b - (t + 1)) = b := by omega
      rwa [this] at h1
  · intro h
    constructor
    · apply Nat.eq_of_testBit_eq
      intro i
      rw [← Nat.shiftRight_eq_div_pow, ← Nat.shiftRight_eq_div_pow,
        Nat.testBit_shiftRight, Nat.testBit_shiftRight]
      exact h _ (by omega)
    · apply Nat.eq_of_testBit_eq
      intro i
      rw [Nat.testBit_mod_two_pow, Nat.testBit_mod_two_pow]
      rcases Nat.lt_or_ge i t with hit | hit
      · rw [h i (by omega)]
      · simp [Nat.not_lt.mpr hit]

lemma testBit_lt_two {b : ℕ} (hb : b < 2) (k : ℕ) :
    b.testBit k = (decide (b = 1) && decide (k = 0)) := by
  interval_cases b
  · simp
  · rw [show (1 : ℕ) = 2 ^ 0 from rfl, Nat.testBit_two_pow]
    simp [eq_comm]

/-- Value of the two-bit mask `x & ((1 << c) | (1 << t))` for `c < t`. -/
lemma and_or_mask {c t : ℕ} (hct : c < t) (x : ℕ) :
    x &&& ((1 <<< c) ||| (1 <<< t)) = 2 ^ c * bit_at x c + 2 ^ t * bit_at x t := by
  have hbc := bit_at_lt_two x c
  have hbt := bit_at_lt_two x t
  have hcpow : (2 : ℕ) ^ c < 2 ^ t := Nat.pow_lt_pow_right (by norm_num) hct
  have hlt : 2 ^ c * bit_at x c < 2 ^ t := by
    have h1 : bit_at x c ≤ 1 := by omega
    have h2 : 2 ^ c * bit_at x c ≤ 2 ^ c * 1 := Nat.mul_le_mul_left _ h1
    omega
  apply Nat.eq_of_testBit_eq
  intro j
  rw [Nat.testBit_and, Nat.one_shiftLeft, Nat.one_shiftLeft, Nat.testBit_or,
    Nat.testBit_two_pow, Nat.testBit_two_pow,
    show 2 ^ c * bit_at x c + 2 ^ t * bit_at x t =
      2 ^ t * bit_at x t + 2 ^ c * bit_at x c by ring,
    Nat.testBit_mul_pow_two_add _ hlt,
    show 2 ^ c * bit_at x c = 2 ^ c * bit_at x c + 0 by ring,
    Nat.testBit_mul_pow_two_add _ (Nat.pos_pow_of_pos _ (by norm_num)),
    testBit_lt_two hbc, testBit_lt_two hbt]
  have hc := bit_at_eq_toNat_testBit x c
  have ht := bit_at_eq_toNat_testBit x t
  by_cases hjc : j = c
  · subst hjc
    simp only [Nat.sub_self, decide_eq_true_eq]
    rcases hxc : x.testBit j with _ | _ <;> rw [hxc] at hc <;> simp_all
  · by_cases hjt : j = t
    · subst hjt
      simp only [Nat.sub_self, decide_eq_true_eq]
      rcases hxt : x.testBit j with _ | _ <;> rw [hxt] at ht <;> simp_all
    · have e1 : decide (c = j) = false := by simp; omega
      have e2 : decide (t = j) = false := by simp; omega
      rw [e1, e2]
      simp only [Bool.or_false, Bool.and_false]
      rcases Nat.lt_trichotomy j t with h2 | h2 | h2
      · rcases Nat.lt_trichotomy j c with h1 | h1 | h1
        · simp [h2, h1]
        · omega
        · have e3 : decide (j - c = 0) = false := by simp; omega
          simp [h2, Nat.lt_asymm h1, e3]
      · omega
      · have e4 : decide (j - t = 0) = false := by simp; omega
        simp [Nat.lt_asymm h2, e4]

/-- Canonical decomposition of a natural number around bits `c < t`. -/
lemma decomp2 {c t : ℕ} (hct : c < t) (x : ℕ) :
    x = 2 ^ (t + 1) * (x / 2 ^ (t + 1)) + 2 ^ t * bit_at x t +
        2 ^ (c + 1) * (x / 2 ^ (c + 1) % 2 ^ (t - (c + 1))) +
        2 ^ c * bit_at x c + x % 2 ^ c := by
  have h1 := decomp1 x t
  have h2 := decomp1 (x % 2 ^ t) c
  have hb : bit_at (x % 2 ^ t) c = bit_at x c := by
    rw [bit_at_eq_toNat_testBit, bit_at_eq_toNat_testBit,
      Nat.testBit_mod_two_pow, decide_eq_true hct, Bool.true_and]
  have hm : x % 2 ^ t % 2 ^ c = x % 2 ^ c :=
    Nat.mod_mod_of_dvd x (pow_dvd_pow 2 (le_of_lt hct))
  have hd : x % 2 ^ t / 2 ^ (c + 1) = x / 2 ^ (c + 1) % 2 ^ (t - (c + 1)) := by
    rw [show (2 : ℕ) ^ t = 2 ^ (c + 1) * 2 ^ (t - (c + 1)) by
        rw [← pow_add]; congr 1; omega]
    exact Nat.mod_mul_right_div_self x _ _
  rw [hb, hm, hd] at h2
  omega

lemma comp2_facts {c t bt bc w r : ℕ} (hct : c < t) (hbt : bt < 2) (hbc : bc < 2)
    (hw : w < 2 ^ (t - (c + 1))) (hr : r < 2 ^ c) (q : ℕ) :
    bit_at (2 ^ (t + 1) * q + 2 ^ t * bt + 2 ^ (c + 1) * w + 2 ^ c * bc + r) t = bt ∧
    bit_at (2 ^ (t + 1) * q + 2 ^ t * bt + 2 ^ (c + 1) * w + 2 ^ c * bc + r) c = bc ∧
    (2 ^ (t + 1) * q + 2 ^ t * bt + 2 ^ (c + 1) * w + 2 ^ c * bc + r) / 2 ^ (t + 1) = q ∧
    (2 ^ (t + 1) * q + 2 ^ t * bt + 2 ^ (c + 1) * w + 2 ^ c * bc + r) / 2 ^ (c + 1) %
      2 ^ (t - (c + 1)) = w ∧
    (2 ^ (t + 1) * q + 2 ^ t * bt + 2 ^ (c + 1) * w + 2 ^ c * bc + r) % 2 ^ c = r := by
  set M := 2 ^ (c + 1) * w + 2 ^ c * bc + r with hM_def
  have hc2 : (2 : ℕ) ^ (c + 1) = 2 ^ c + 2 ^ c := by rw [pow_succ]; ring
  have hsplit : (2 : ℕ) ^ t = 2 ^ (c + 1) * 2 ^ (t - (c + 1)) := by
    rw [← pow_add]; congr 1; omega
  have hM : M < 2 ^ t := by
    have h1 : 2 ^ c * bc + r < 2 ^ (c + 1) := by interval_cases bc <;> omega
    have h2 : M < 2 ^ (c + 1) * (w + 1) := by
      have : 2 ^ (c + 1) * (w + 1) = 2 ^ (c + 1) * w + 2 ^ (c + 1) := by ring
      omega
    have h3 : 2 ^ (c + 1) * (w + 1) ≤ 2 ^ (c + 1) * 2 ^ (t - (c + 1)) :=
      Nat.mul_le_mul_left _ (by omega)
    omega
  have hform : 2 ^ (t + 1) * q + 2 ^ t * bt + 2 ^ (c + 1) * w + 2 ^ c * bc + r =
      2 ^ (t + 1) * q + 2 ^ t * bt + M := by rw [hM_def]; ring
  have e1 : bit_at (2 ^ (t + 1) * q + 2 ^ t * bt + M) t = bt := comp1_bit hbt hM q
  have e2 : (2 ^ (t + 1) * q + 2 ^ t * bt + M) / 2 ^ (t + 1) = q := comp1_div hbt hM q
  have e3 : (2 ^ (t + 1) * q + 2 ^ t * bt + M) % 2 ^ t = M := comp1_mod hM q
  have f1 : bit_at M c = bc := comp1_bit hbc hr w
  have f2 : M / 2 ^ (c + 1) = w := comp1_div hbc hr w
  have f3 : M % 2 ^ c = r := comp1_mod hr w
  refine ⟨by rw [hform]; exact e1, ?_, by rw [hform]; exact e2, ?_, ?_⟩
  · rw [hform]
    have : bit_at (2 ^ (t + 1) * q + 2 ^ t * bt + M) c =
        bit_at ((2 ^ (t + 1) * q + 2 ^ t * bt + M) % 2 ^ t) c := by
      rw [bit_at_eq_toNat_testBit, bit_at_eq_toNat_testBit,
        Nat.testBit_mod_two_pow, decide_eq_true hct, Bool.true_and]
    rw [this, e3, f1]
  · rw [hform]
    have : (2 ^ (t + 1) * q + 2 ^ t * bt + M) / 2 ^ (c + 1) % 2 ^ (t - (c + 1)) =
        (2 ^ (t + 1) * q + 2 ^ t * bt + M) % 2 ^ t / 2 ^ (c + 1) := by
      rw [hsplit]; exact (Nat.mod_mul_right_div_self _ _ _).symm
    rw [this, e3, f2]
  · rw [hform]
    have : (2 ^ (t + 1) * q + 2 ^ t * bt + M) % 2 ^ c =
        (2 ^ (t + 1) * q + 2 ^ t * bt + M) % 2 ^ t % 2 ^ c :=
      (Nat.mod_mod_of_dvd _ (pow_dvd_pow 2 (le_of_lt hct))).symm
    rw [this, e3, f3]

lemma clear2_eq_sub {c t : ℕ} (hct : c < t) (x : ℕ) :
    clear2 x c t = x - (2 ^ c * bit_at x c + 2 ^ t * bit_at x t) := by
  rw [clear2, and_or_mask hct]

lemma clear2_decomp {c t : ℕ} (hct : c < t) (x : ℕ) :
    clear2 x c t = 2 ^ (t + 1) * (x / 2 ^ (t + 1)) +
      2 ^ (c + 1) * (x / 2 ^ (c + 1) % 2 ^ (t - (c + 1))) + x % 2 ^ c := by
  have h := decomp2 hct x
  rw [clear2_eq_sub hct]
  omega

lemma comp2_clear {c t bt bc w r : ℕ} (hct : c < t) (hbt : bt < 2) (hbc : bc < 2)
    (hw : w < 2 ^ (t - (c + 1))) (hr : r < 2 ^ c) (q : ℕ) :
    clear2 (2 ^ (t + 1) * q + 2 ^ t * bt + 2 ^ (c + 1) * w + 2 ^ c * bc + r) c t =
      2 ^ (t + 1) * q + 2 ^ (c + 1) * w + r := by
  obtain ⟨e1, e2, -, -, -⟩ := comp2_facts hct hbt hbc hw hr q
  rw [clear2_eq_sub hct, e1, e2]
  omega

lemma recon2 {c t : ℕ} (hct : c < t) (x : ℕ) :
    x = clear2 x c t + 2 ^ c * bit_at x c + 2 ^ t * bit_at x t := by
  have h1 := decomp2 hct x
  have h2 := clear2_decomp hct x
  omega

lemma clear2_eq_iff {c t : ℕ} (hct : c < t) (x y : ℕ) :
    clear2 x c t = clear2 y c t ↔
      x / 2 ^ (t + 1) = y / 2 ^ (t + 1) ∧
      x / 2 ^ (c + 1) % 2 ^ (t - (c + 1)) = y / 2 ^ (c + 1) % 2 ^ (t - (c + 1)) ∧
      x % 2 ^ c = y % 2 ^ c := by
  have key : ∀ z : ℕ, clear2 z c t / 2 ^ (t + 1) = z / 2 ^ (t + 1) ∧
      clear2 z c t / 2 ^ (c + 1) % 2 ^ (t - (c + 1)) =
        z / 2 ^ (c + 1) % 2 ^ (t - (c + 1)) ∧
      clear2 z c t % 2 ^ c = z % 2 ^ c := by
    intro z
    have hw : z / 2 ^ (c + 1) % 2 ^ (t - (c + 1)) < 2 ^ (t - (c + 1)) :=
      Nat.mod_lt _ (Nat.pos_pow_of_pos _ (by norm_num))
    have hr : z % 2 ^ c < 2 ^ c := Nat.mod_lt _ (Nat.pos_pow_of_pos _ (by norm_num))
    obtain ⟨-, -, g3, g4, g5⟩ :=
      @comp2_facts c t 0 0 _ _ hct (by norm_num) (by norm_num) hw hr
        (z / 2 ^ (t + 1))
    simp only [Nat.mul_zero, Nat.add_zero] at g3 g4 g5
    rw [← clear2_decomp hct] at g3 g4 g5
    exact ⟨g3, g4, g5⟩
  constructor
  · intro h
    obtain ⟨a1, a2, a3⟩ := key x
    obtain ⟨b1, b2, b3⟩ := key y
    rw [h] at a1 a2 a3
    exact ⟨a1.symm.trans b1, a2.symm.trans b2, a3.symm.trans b3⟩
  · intro ⟨h1, h2, h3⟩
    rw [clear2_decomp hct, clear2_decomp hct, h1, h2, h3]

/-- The spec-level reading of the two-bit mask test for `c < t`. -/
lemma clear2_eq_iff_testBit_sorted {c t : ℕ} (hct : c < t) (x y : ℕ) :
    clear2 x c t = clear2 y c t ↔
      ∀ b, b ≠ c → b ≠ t → x.testBit b = y.testBit b := by
  rw [clear2_eq_iff hct]
  constructor
  · intro ⟨hd, hw, hm⟩ b hbc hbt
    rcases Nat.lt_trichotomy b c with h1 | h1 | h1
    · have h2 : (x % 2 ^ c).testBit b = (y % 2 ^ c).testBit b := by rw [hm]
      simpa [Nat.testBit_mod_two_pow, h1] using h2
    · omega
    · rcases Nat.lt_trichotomy b t with h2 | h2 | h2
      · have hble : c + 1 ≤ b := by omega
        have h3 : (x / 2 ^ (c + 1) % 2 ^ (t - (c + 1))).testBit (b - (c + 1)) =
            (y / 2 ^ (c + 1) % 2 ^ (t - (c + 1))).testBit (b - (c + 1)) := by rw [hw]
        rw [Nat.testBit_mod_two_pow, Nat.testBit_mod_two_pow,
          ← Nat.shiftRight_eq_div_pow, ← Nat.shiftRight_eq_div_pow,
          Nat.testBit_shiftRight, Nat.testBit_shiftRight] at h3
        have he : c + 1 + (b - (c + 1)) = b := by omega
        rw [he] at h3
        have hlt : b - (c + 1) < t - (c + 1) := by omega
        simpa [hlt] using h3
      · omega
      · have h3 : (x / 2 ^ (t + 1)).testBit (b - (t + 1)) =
            (y / 2 ^ (t + 1)).testBit (b - (t + 1)) := by rw [hd]
        rw [← Nat.shiftRight_eq_div_pow, ← Nat.shiftRight_eq_div_pow,
          Nat.testBit_shiftRight, Nat.testBit_shiftRight] at h3
        have he : t + 1 + (b - (t + 1)) = b := by omega
        rwa [he] at h3
  · intro h
    refine ⟨?_, ?_, ?_⟩
    · apply Nat.eq_of_testBit_eq
      intro i
      rw [← Nat.shiftRight_eq_div_pow, ← Nat.shiftRight_eq_div_pow,
        Nat.testBit_shiftRight, Nat.testBit_shiftRight]
      exact h _ (by omega) (by omega)
    · apply Nat.eq_of_testBit_eq
      intro i
      rw [Nat.testBit_mod_two_pow, Nat.testBit_mod_two_pow,
        ← Nat.shiftRight_eq_div_pow, ← Nat.shiftRight_eq_div_pow,
        Nat.testBit_shiftRight, Nat.testBit_shiftRight]
      rcases Nat.lt_or_ge i (t - (c + 1)) with hit | hit
      · rw [h _ (by omega) (by omega)]
      · simp [Nat.not_lt.mpr hit]
    · apply Nat.eq_of_testBit_eq
      intro i
      rw [Nat.testBit_mod_two_pow, Nat.testBit_mod_two_pow]
      rcases Nat.lt_or_ge i c with hit | hit
      · rw [h _ (by omega) (by omega)]
      · simp [Nat.not_lt.mpr hit]

/-- General `c ≠ t` form of the mask test characterisation. -/
lemma clear2_eq_iff_testBit {c t : ℕ} (hct : c ≠ t) (x y : ℕ) :
    clear2 x c t = clear2 y c t ↔
      ∀ b, b ≠ c → b ≠ t → x.testBit b = y.testBit b := by
  rcases Nat.lt_or_gt_of_ne hct with h | h
  · exact clear2_eq_iff_testBit_sorted h x y
  · rw [clear2, clear2, Nat.lor_comm]
    rw [show x - (x &&& ((1 <<< t) ||| (1 <<< c))) = clear2 x t c from rfl,
      show y - (y &&& ((1 <<< t) ||| (1 <<< c))) = clear2 y t c from rfl,
      clear2_eq_iff_testBit_sorted h x y]
    constructor
    · intro h1 b h2 h3; exact h1 b h3 h2
    · intro h1 b h2 h3; exact h1 b h3 h2

lemma clear2_comm (x c t : ℕ) : clear2 x c t = clear2 x t c := by
  rw [clear2, clear2, Nat.lor_comm]

lemma clear2_add_bits_sorted {c t β γ : ℕ} (hct : c < t) (hβ : β < 2) (hγ : γ < 2)
    (x : ℕ) :
    clear2 (clear2 x c t + 2 ^ c * β + 2 ^ t * γ) c t = clear2 x c t ∧
      bit_at (clear2 x c t + 2 ^ c * β + 2 ^ t * γ) c = β ∧
      bit_at (clear2 x c t + 2 ^ c * β + 2 ^ t * γ) t = γ := by
  have hw : x / 2 ^ (c + 1) % 2 ^ (t - (c + 1)) < 2 ^ (t - (c + 1)) :=
    Nat.mod_lt _ (Nat.pos_pow_of_pos _ (by norm_num))
  have hr : x % 2 ^ c < 2 ^ c := Nat.mod_lt _ (Nat.pos_pow_of_pos _ (by norm_num))
  have hform : clear2 x c t + 2 ^ c * β + 2 ^ t * γ =
      2 ^ (t + 1) * (x / 2 ^ (t + 1)) + 2 ^ t * γ +
        2 ^ (c + 1) * (x / 2 ^ (c + 1) % 2 ^ (t - (c + 1))) + 2 ^ c * β + x % 2 ^ c := by
    rw [clear2_decomp hct]; ring
  obtain ⟨e1, e2, -, -, -⟩ := comp2_facts hct hγ hβ hw hr (x / 2 ^ (t + 1))
  have e3 := comp2_clear hct hγ hβ hw hr (x / 2 ^ (t + 1))
  refine ⟨?_, ?_, ?_⟩
  · rw [hform, e3, clear2_decomp hct x]
  · rw [hform, e2]
  · rw [hform, e1]

lemma clear2_add_bits {c t β γ : ℕ} (hct : c ≠ t) (hβ : β < 2) (hγ : γ < 2) (x : ℕ) :
    clear2 (clear2 x c t + 2 ^ c * β + 2 ^ t * γ) c t = clear2 x c t ∧
      bit_at (clear2 x c t + 2 ^ c * β + 2 ^ t * γ) c = β ∧
      bit_at (clear2 x c t + 2 ^ c * β + 2 ^ t * γ) t = γ := by
  rcases Nat.lt_or_gt_of_ne hct with h | h
  · exact clear2_add_bits_sorted h hβ hγ x
  · obtain ⟨f1, f2, f3⟩ := clear2_add_bits_sorted h hγ hβ x
    have key : clear2 x c t + 2 ^ c * β + 2 ^ t * γ =
        clear2 x t c + 2 ^ t * γ + 2 ^ c * β := by rw [clear2_comm x c t]; ring
    refine ⟨?_, ?_, ?_⟩
    · rw [key, clear2_comm _ c t, f1, ← clear2_comm x c t]
    · rw [key]; exact f3
    · rw [key]; exact f2

lemma recon2_general {c t : ℕ} (hct : c ≠ t) (x : ℕ) :
    x = clear2 x c t + 2 ^ c * bit_at x c + 2 ^ t * bit_at x t := by
  rcases Nat.lt_or_gt_of_ne hct with h | h
  · exact recon2 h x
  · have h1 := recon2 h x
    rw [clear2_comm x c t]; omega

lemma clear2_add_bits_lt_sorted {n c t β γ x : ℕ} (hct : c < t) (ht : t < n)
    (hx : x < 2 ^ n) (hβ : β < 2) (hγ : γ < 2) :
    clear2 x c t + 2 ^ c * β + 2 ^ t * γ < 2 ^ n := by
  have hw : x / 2 ^ (c + 1) % 2 ^ (t - (c + 1)) < 2 ^ (t - (c + 1)) :=
    Nat.mod_lt _ (Nat.pos_pow_of_pos _ (by norm_num))
  have hr : x % 2 ^ c < 2 ^ c := Nat.mod_lt _ (Nat.pos_pow_of_pos _ (by norm_num))
  have hc2 : (2 : ℕ) ^ (c + 1) = 2 ^ c + 2 ^ c := by rw [pow_succ]; ring
  have ht2 : (2 : ℕ) ^ (t + 1) = 2 ^ t + 2 ^ t := by rw [pow_succ]; ring
  have hsplitc : (2 : ℕ) ^ t = 2 ^ (c + 1) * 2 ^ (t - (c + 1)) := by
    rw [← pow_add]; congr 1; omega
  have hM : 2 ^ (c + 1) * (x / 2 ^ (c + 1) % 2 ^ (t - (c + 1))) + 2 ^ c * β +
      x % 2 ^ c < 2 ^ t := by
    have h1 : 2 ^ c * β + x % 2 ^ c < 2 ^ (c + 1) := by interval_cases β <;> omega
    have h2 : 2 ^ (c + 1) * (x / 2 ^ (c + 1) % 2 ^ (t - (c + 1))) + 2 ^ c * β +
        x % 2 ^ c < 2 ^ (c + 1) * (x / 2 ^ (c + 1) % 2 ^ (t - (c + 1)) + 1) := by
      have h3 : 2 ^ (c + 1) * (x / 2 ^ (c + 1) % 2 ^ (t - (c + 1)) + 1) =
          2 ^ (c + 1) * (x / 2 ^ (c + 1) % 2 ^ (t - (c + 1))) + 2 ^ (c + 1) := by ring
      omega
    have h4 : 2 ^ (c + 1) * (x / 2 ^ (c + 1) % 2 ^ (t - (c + 1)) + 1) ≤
        2 ^ (c + 1) * 2 ^ (t - (c + 1)) := Nat.mul_le_mul_left _ (by omega)
    omega
  have hq : x / 2 ^ (t + 1) < 2 ^ (n - (t + 1)) := by
    rw [Nat.div_lt_iff_lt_mul (Nat.pos_pow_of_pos _ (by norm_num))]
    calc x < 2 ^ n := hx
    _ = 2 ^ (n - (t + 1)) * 2 ^ (t + 1) := by rw [← pow_add]; congr 1; omega
  have hsplit : 2 ^ n = 2 ^ (t + 1) * 2 ^ (n - (t + 1)) := by
    rw [← pow_add]; congr 1; omega
  have hstep : clear2 x c t + 2 ^ c * β + 2 ^ t * γ <
      2 ^ (t + 1) * (x / 2 ^ (t + 1) + 1) := by
    rw [clear2_decomp hct]
    have h5 : 2 ^ (t + 1) * (x / 2 ^ (t + 1) + 1) =
        2 ^ (t + 1) * (x / 2 ^ (t + 1)) + 2 ^ (t + 1) := by ring
    interval_cases γ <;> omega
  calc clear2 x c t + 2 ^ c * β + 2 ^ t * γ
      < 2 ^ (t + 1) * (x / 2 ^ (t + 1) + 1) := hstep
  _ ≤ 2 ^ (t + 1) * 2 ^ (n - (t + 1)) := Nat.mul_le_mul_left _ (by omega)
  _ = 2 ^ n := hsplit.symm

lemma clear2_add_bits_lt {n c t β γ x : ℕ} (hct : c ≠ t) (hc : c < n) (ht : t < n)
    (hx : x < 2 ^ n) (hβ : β < 2) (hγ : γ < 2) :
    clear2 x c t + 2 ^ c * β + 2 ^ t * γ < 2 ^ n := by
  rcases Nat.lt_or_gt_of_ne hct with h | h
  · exact clear2_add_bits_lt_sorted h ht hx hβ hγ
  · have h1 := clear2_add_bits_lt_sorted h hc hx hγ hβ
    rw [clear2_comm x c t]; omega

/-! ### Gate matrices (source `quantum.py` lines 19-86)

`I`, `-I` etc. below use `Complex.I` for the Python literal `1j`. -/

def PAULI_I : Matrix (Fin 2) (Fin 2) ℂ := !![1, 0; 0, 1]

def PAULI_X : Matrix (Fin 2) (Fin 2) ℂ := !![0, 1; 1, 0]

def PAULI_Y : Matrix (Fin 2) (Fin 2) ℂ := !![0, -I; I, 0]

def PAULI_Z : Matrix (Fin 2) (Fin 2) ℂ := !![1, 0; 0, -1]

/-- `HADAMARD = [[1,1],[1,-1]] / sqrt(2)`. -/
def HADAMARD : Matrix (Fin 2) (Fin 2) ℂ := ((Real.sqrt 2 : ℂ))⁻¹ • !![1, 1; 1, -1]

def PHASE_GATE : Matrix (Fin 2) (Fin 2) ℂ := !![1, 0; 0, I]

/-- `T_GATE = [[1,0],[0,exp(1j*pi/4)]]`. -/
def T_GATE : Matrix (Fin 2) (Fin 2) ℂ := !![1, 0; 0, Complex.exp (I * ((π : ℂ) / 4))]

def S_GATE : Matrix (Fin 2) (Fin 2) ℂ := !![1, 0; 0, I]

/-- Rotation around X-axis. -/
def rx_gate (θ : ℝ) : Matrix (Fin 2) (Fin 2) ℂ :=
  !![(Real.cos (θ / 2) : ℂ), -I * (Real.sin (θ / 2) : ℂ);
     -I * (Real.sin (θ / 2) : ℂ), (Real.cos (θ / 2) : ℂ)]

/-- Rotation around Y-axis. -/
def ry_gate (θ : ℝ) : Matrix (Fin 2) (Fin 2) ℂ :=
  !![(Real.cos (θ / 2) : ℂ), -(Real.sin (θ / 2) : ℂ);
     (Real.sin (θ / 2) : ℂ), (Real.cos (θ / 2) : ℂ)]

/-- Rotation around Z-axis. -/
def rz_gate (θ : ℝ) : Matrix (Fin 2) (Fin 2) ℂ :=
  !![Complex.exp (-I * (θ : ℂ) / 2), 0; 0, Complex.exp (I * (θ : ℂ) / 2)]

def CZ_GATE : Matrix (Fin 4) (Fin 4) ℂ :=
  !![1, 0, 0, 0; 0, 1, 0, 0; 0, 0, 1, 0; 0, 0, 0, -1]

def SWAP_GATE : Matrix (Fin 4) (Fin 4) ℂ :=
  !![1, 0, 0, 0; 0, 0, 1, 0; 0, 1, 0, 0; 0, 0, 0, 1]

def TOFFOLI_GATE : Matrix (Fin 8) (Fin 8) ℂ :=
  !![1, 0, 0, 0, 0, 0, 0, 0;
     0, 1, 0, 0, 0, 0, 0, 0;
     0, 0, 1, 0, 0, 0, 0, 0;
     0, 0, 0, 1, 0, 0, 0, 0;
     0, 0, 0, 0, 1, 0, 0, 0;
     0, 0, 0, 0, 0, 1, 0, 0;
     0, 0, 0, 0, 0, 0, 0, 1;
     0, 0, 0, 0, 0, 0, 1, 0]

/-- The `'CNOT'` entry written inline in the `QUANTUM_GATES` dictionary. -/
def CNOT_GATE : Matrix (Fin 4) (Fin 4) ℂ :=
  !![1, 0, 0, 0; 0, 1, 0, 0; 0, 0, 0, 1; 0, 0, 1, 0]

/-- The `QUANTUM_GATES` dictionary: gate name to (qubit arity, matrix). -/
def QUANTUM_GATES : List (String × Σ k : ℕ, Matrix (Fin (2 ^ k)) (Fin (2 ^ k)) ℂ) :=
  [("I", ⟨1, PAULI_I⟩), ("X", ⟨1, PAULI_X⟩), ("Y", ⟨1, PAULI_Y⟩), ("Z", ⟨1, PAULI_Z⟩),
   ("H", ⟨1, HADAMARD⟩), ("S", ⟨1, S_GATE⟩), ("T", ⟨1, T_GATE⟩),
   ("PHASE", ⟨1, PHASE_GATE⟩), ("CNOT", ⟨2, CNOT_GATE⟩), ("CZ", ⟨2, CZ_GATE⟩),
   ("SWAP", ⟨2, SWAP_GATE⟩), ("TOFFOLI", ⟨3, TOFFOLI_GATE⟩)]

namespace Quantum

/-- `commutator(A, B) = AB - BA`. -/
def commutator {d : ℕ} (A B : Matrix (Fin d) (Fin d) ℂ) : Matrix (Fin d) (Fin d) ℂ :=
  A * B - B * A

/-- `anticommutator(A, B) = AB + BA`. -/
def anticommutator {d : ℕ} (A B : Matrix (Fin d) (Fin d) ℂ) :
    Matrix (Fin d) (Fin d) ℂ :=
  A * B + B * A

end Quantum

open Quantum

/-- `is_unitary(M)` checks `allclose(M.conj().T @ M, eye, atol=1e-10)`.  In the
exact model of the float computation the check is the equality `Mᴴ * M = 1`
(which entails agreement within every nonnegative tolerance). -/
def is_unitary {d : ℕ} (M : Matrix (Fin d) (Fin d) ℂ) : Prop :=
  M.conjTranspose * M = 1

/-! ### Circuit model (source `quantum.py` lines 533-679) -/

structure GateApplication where
  gate : String
  qubits : List ℕ
  params : List ℝ

structure QuantumCircuit where
  num_qubits : ℕ
  gates : List GateApplication
  measurements : List (ℕ × ℕ)

namespace QuantumCircuit

/-- Fresh circuit, as built by `QuantumCircuit(num_qubits)`. -/
def init (num_qubits : ℕ) : QuantumCircuit := ⟨num_qubits, [], []⟩

/-- `add_gate` appends a `GateApplication`; the Python `Union[int, List[int]]`
qubit argument is taken here in already-listified form (the method itself
wraps a single `int` into a one-element list and performs no other
processing, in particular no arity or range validation). -/
def add_gate (self : QuantumCircuit) (gate_name : String) (qubits : List ℕ)
    (params : List ℝ) : QuantumCircuit :=
  { self with gates := self.gates ++ [⟨gate_name, qubits, params⟩] }

def h (self : QuantumCircuit) (qubit : ℕ) : QuantumCircuit :=
  self.add_gate "H" [qubit] []

def x (self : QuantumCircuit) (qubit : ℕ) : QuantumCircuit :=
  self.add_gate "X" [qubit] []

def y (self : QuantumCircuit) (qubit : ℕ) : QuantumCircuit :=
  self.add_gate "Y" [qubit] []

def z (self : QuantumCircuit) (qubit : ℕ) : QuantumCircuit :=
  self.add_gate "Z" [qubit] []

def rx (self : QuantumCircuit) (qubit : ℕ) (θ : ℝ) : QuantumCircuit :=
  self.add_gate "RX" [qubit] [θ]

def ry (self : QuantumCircuit) (qubit : ℕ) (θ : ℝ) : QuantumCircuit :=
  self.add_gate "RY" [qubit] [θ]

def rz (self : QuantumCircuit) (qubit : ℕ) (θ : ℝ) : QuantumCircuit :=
  self.add_gate "RZ" [qubit] [θ]

def cnot (self : QuantumCircuit) (control target : ℕ) : QuantumCircuit :=
  self.add_gate "CNOT" [control, target] []

def cz (self : QuantumCircuit) (control target : ℕ) : QuantumCircuit :=
  self.add_gate "CZ" [control, target] []

def swap (self : QuantumCircuit) (qubit1 qubit2 : ℕ) : QuantumCircuit :=
  self.add_gate "SWAP" [qubit1, qubit2] []

def measure (self : QuantumCircuit) (qubit classical_bit : ℕ) : QuantumCircuit :=
  { self with measurements := self.measurements ++ [(qubit, classical_bit)] }

end QuantumCircuit

/-- `_expand_single_qubit_gate`: entry `(i, j)` is `gate[bit_i, bit_j]` when
`i & ~(1 << target) == j & ~(1 << target)` and `0` otherwise.  (The `eye`
initialisation in the source is dead: the loop overwrites every entry.) -/
def expand_single_qubit_gate (n : ℕ) (gate : Matrix (Fin 2) (Fin 2) ℂ)
    (target_qubit : ℕ) : Matrix (Fin (2 ^ n)) (Fin (2 ^ n)) ℂ :=
  Matrix.of fun i j =>
    if clear1 i.val target_qubit = clear1 j.val target_qubit then
      gate ⟨bit_at i.val target_qubit, bit_at_lt_two _ _⟩
        ⟨bit_at j.val target_qubit, bit_at_lt_two _ _⟩
    else 0

/-- `_expand_two_qubit_gate`: entry `(i, j)` is
`gate[2*bit_i_c + bit_i_t, 2*bit_j_c + bit_j_t]` when
`i & ~((1 << control) | (1 << target)) == j & ~(...)` and `0` otherwise. -/
def expand_two_qubit_gate (n : ℕ) (gate : Matrix (Fin 4) (Fin 4) ℂ)
    (control target : ℕ) : Matrix (Fin (2 ^ n)) (Fin (2 ^ n)) ℂ :=
  Matrix.of fun i j =>
    if clear2 i.val control target = clear2 j.val control target then
      gate ⟨2 * bit_at i.val control + bit_at i.val target, by
          have h1 := bit_at_lt_two i.val control
          have h2 := bit_at_lt_two i.val target
          omega⟩
        ⟨2 * bit_at j.val control + bit_at j.val target, by
          have h1 := bit_at_lt_two j.val control
          have h2 := bit_at_lt_two j.val target
          omega⟩
    else 0

/-- `_get_gate_matrix`: dispatch on the gate name; `none` models the
`ValueError("Unknown gate: ...")` raise and the `IndexError` from a missing
qubit index or rotation parameter. -/
def get_gate_matrix (n : ℕ) (gi : GateApplication) :
    Option (Matrix (Fin (2 ^ n)) (Fin (2 ^ n)) ℂ) :=
  match gi.gate with
  | "H" => (gi.qubits[0]?).map fun q => expand_single_qubit_gate n HADAMARD q
  | "X" => (gi.qubits[0]?).map fun q => expand_single_qubit_gate n PAULI_X q
  | "Y" => (gi.qubits[0]?).map fun q => expand_single_qubit_gate n PAULI_Y q
  | "Z" => (gi.qubits[0]?).map fun q => expand_single_qubit_gate n PAULI_Z q
  | "S" => (gi.qubits[0]?).map fun q => expand_single_qubit_gate n S_GATE q
  | "T" => (gi.qubits[0]?).map fun q => expand_single_qubit_gate n T_GATE q
  | "RX" => (gi.params[0]?).bind fun θ =>
      (gi.qubits[0]?).map fun q => expand_single_qubit_gate n (rx_gate θ) q
  | "RY" => (gi.params[0]?).bind fun θ =>
      (gi.qubits[0]?).map fun q => expand_single_qubit_gate n (ry_gate θ) q
  | "RZ" => (gi.params[0]?).bind fun θ =>
      (gi.qubits[0]?).map fun q => expand_single_qubit_gate n (rz_gate θ) q
  | "CNOT" => (gi.qubits[0]?).bind fun c =>
      (gi.qubits[1]?).map fun t => expand_two_qubit_gate n CNOT_GATE c t
  | "CZ" => (gi.qubits[0]?).bind fun c =>
      (gi.qubits[1]?).map fun t => expand_two_qubit_gate n CZ_GATE c t
  | "SWAP" => (gi.qubits[0]?).bind fun c =>
      (gi.qubits[1]?).map fun t => expand_two_qubit_gate n SWAP_GATE c t
  | _ => none

/-- `get_unitary`: running product over the gate list, starting from the
`2^n`-identity, each step left-multiplying the new full-space gate matrix. -/
def get_unitary (self : QuantumCircuit) :
    Option (Matrix (Fin (2 ^ self.num_qubits)) (Fin (2 ^ self.num_qubits)) ℂ) :=
  self.gates.foldl
    (fun acc gi => acc.bind fun u => (get_gate_matrix self.num_qubits gi).map
      fun g => g * u)
    (some 1)

/-! ### Unitarity of the individual gate matrices -/

lemma star_exp_unit {z : ℂ} (hz : (starRingEnd ℂ) z = -z) :
    (starRingEnd ℂ) (Complex.exp z) * Complex.exp z = 1 := by
  rw [← Complex.exp_conj, ← Complex.exp_add, hz, neg_add_cancel, Complex.exp_zero]

lemma rot_x_aux (a b : ℝ) (h : a ^ 2 + b ^ 2 = 1) :
    (!![(a : ℂ), -I * (b : ℂ); -I * (b : ℂ), (a : ℂ)]).conjTranspose *
      !![(a : ℂ), -I * (b : ℂ); -I * (b : ℂ), (a : ℂ)] = 1 := by
  have hkey : (a : ℂ) ^ 2 + (b : ℂ) ^ 2 = 1 := by
    exact_mod_cast congrArg (fun r : ℝ => (r : ℂ)) h
  ext i j
  fin_cases i <;> fin_cases j <;>
    simp [Matrix.mul_apply, Fin.sum_univ_two, Matrix.conjTranspose_apply,
      Matrix.one_apply, Complex.conj_I, Complex.conj_ofReal] <;>
    first
      | ring1
      | linear_combination hkey - (b : ℂ) ^ 2 * Complex.I_sq

lemma rot_y_aux (a b : ℝ) (h : a ^ 2 + b ^ 2 = 1) :
    (!![(a : ℂ), -(b : ℂ); (b : ℂ), (a : ℂ)]).conjTranspose *
      !![(a : ℂ), -(b : ℂ); (b : ℂ), (a : ℂ)] = 1 := by
  have hkey : (a : ℂ) ^ 2 + (b : ℂ) ^ 2 = 1 := by
    exact_mod_cast congrArg (fun r : ℝ => (r : ℂ)) h
  ext i j
  fin_cases i <;> fin_cases j <;>
    simp [Matrix.mul_apply, Fin.sum_univ_two, Matrix.conjTranspose_apply,
      Matrix.one_apply, Complex.conj_ofReal] <;>
    first | ring1 | linear_combination hkey

lemma PAULI_I_unitary : is_unitary PAULI_I := by
  ext i j
  fin_cases i <;> fin_cases j <;>
    simp [PAULI_I, is_unitary, Matrix.mul_apply, Fin.sum_univ_two,
      Matrix.conjTranspose_apply, Matrix.one_apply]

lemma PAULI_X_unitary : is_unitary PAULI_X := by
  ext i j
  fin_cases i <;> fin_cases j <;>
    simp [PAULI_X, is_unitary, Matrix.mul_apply, Fin.sum_univ_two,
      Matrix.conjTranspose_apply, Matrix.one_apply]

lemma PAULI_Y_unitary : is_unitary PAULI_Y := by
  ext i j
  fin_cases i <;> fin_cases j <;>
    simp [PAULI_Y, is_unitary, Matrix.mul_apply, Fin.sum_univ_two,
      Matrix.conjTranspose_apply, Matrix.one_apply]

lemma PAULI_Z_unitary : is_unitary PAULI_Z := by
  ext i j
  fin_cases i <;> fin_cases j <;>
    simp [PAULI_Z, is_unitary, Matrix.mul_apply, Fin.sum_univ_two,
      Matrix.conjTranspose_apply, Matrix.one_apply]

lemma HADAMARD_unitary : is_unitary HADAMARD := by
  ext i j
  fin_cases i <;> fin_cases j <;>
    simp [HADAMARD, is_unitary, Matrix.mul_apply, Fin.sum_univ_two,
      Matrix.conjTranspose_apply, Matrix.one_apply, Complex.ext_iff] <;>
    nlinarith [Real.sq_sqrt (show (0 : ℝ) ≤ 2 by norm_num), Real.sqrt_nonneg 2]

lemma S_GATE_unitary : is_unitary S_GATE := by
  ext i j
  fin_cases i <;> fin_cases j <;>
    simp [S_GATE, is_unitary, Matrix.mul_apply, Fin.sum_univ_two,
      Matrix.conjTranspose_apply, Matrix.one_apply, Complex.conj_I]

lemma PHASE_GATE_unitary : is_unitary PHASE_GATE := by
  ext i j
  fin_cases i <;> fin_cases j <;>
    simp [PHASE_GATE, is_unitary, Matrix.mul_apply, Fin.sum_univ_two,
      Matrix.conjTranspose_apply, Matrix.one_apply, Complex.conj_I]

lemma T_GATE_unitary : is_unitary T_GATE := by
  have key := star_exp_unit (z := I * ((π : ℂ) / 4)) (by
    simp [map_div₀, map_ofNat, Complex.conj_I, Complex.conj_ofReal]
    try ring)
  ext i j
  fin_cases i <;> fin_cases j <;>
    simp [T_GATE, is_unitary, Matrix.mul_apply, Fin.sum_univ_two,
      Matrix.conjTranspose_apply, Matrix.one_apply, key]

lemma rx_gate_unitary (θ : ℝ) : is_unitary (rx_gate θ) :=
  rot_x_aux (Real.cos (θ / 2)) (Real.sin (θ / 2)) (Real.cos_sq_add_sin_sq _)

lemma ry_gate_unitary (θ : ℝ) : is_unitary (ry_gate θ) :=
  rot_y_aux (Real.cos (θ / 2)) (Real.sin (θ / 2)) (Real.cos_sq_add_sin_sq _)

lemma rz_gate_unitary (θ : ℝ) : is_unitary (rz_gate θ) := by
  have k1 := star_exp_unit (z := -(I * (θ : ℂ)) / 2) (by
    simp [map_div₀, map_ofNat, Complex.conj_I, Complex.conj_ofReal]
    try ring)
  have k2 := star_exp_unit (z := -I * (θ : ℂ) / 2) (by
    simp [map_div₀, map_ofNat, Complex.conj_I, Complex.conj_ofReal]
    try ring)
  have k3 := star_exp_unit (z := I * (θ : ℂ) / 2) (by
    simp [map_div₀, map_ofNat, Complex.conj_I, Complex.conj_ofReal]
    try ring)
  ext i j
  fin_cases i <;> fin_cases j <;>
    simp [rz_gate, is_unitary, Matrix.mul_apply, Fin.sum_univ_two,
      Matrix.conjTranspose_apply, Matrix.one_apply, k1, k2, k3]

lemma CNOT_GATE_unitary : is_unitary CNOT_GATE := by
  ext i j
  fin_cases i <;> fin_cases j <;>
    simp [CNOT_GATE, is_unitary, Matrix.mul_apply, Fin.sum_univ_four,
      Matrix.conjTranspose_apply, Matrix.one_apply, Matrix.vecHead, Matrix.vecTail]

lemma CZ_GATE_unitary : is_unitary CZ_GATE := by
  ext i j
  fin_cases i <;> fin_cases j <;>
    simp [CZ_GATE, is_unitary, Matrix.mul_apply, Fin.sum_univ_four,
      Matrix.conjTranspose_apply, Matrix.one_apply, Matrix.vecHead, Matrix.vecTail]

lemma SWAP_GATE_unitary : is_unitary SWAP_GATE := by
  ext i j
  fin_cases i <;> fin_cases j <;>
    simp [SWAP_GATE, is_unitary, Matrix.mul_apply, Fin.sum_univ_four,
      Matrix.conjTranspose_apply, Matrix.one_apply, Matrix.vecHead, Matrix.vecTail]

lemma TOFFOLI_eq_perm :
    TOFFOLI_GATE =
      (1 : Matrix (Fin 8) (Fin 8) ℂ).submatrix (Equiv.swap 6 7) id := by
  ext i j
  fin_cases i <;> fin_cases j <;> rfl

lemma TOFFOLI_GATE_unitary : is_unitary TOFFOLI_GATE := by
  rw [is_unitary, TOFFOLI_eq_perm, Matrix.conjTranspose_submatrix,
    Matrix.submatrix_mul_equiv, Matrix.conjTranspose_one, Matrix.one_mul,
    Matrix.submatrix_id_id]

/-! ### Unitarity of the full-space expansions -/

/-- The `Fin 2` row/column index used by the single-qubit expansion. -/
def bitF (x : ℕ) (t : ℕ) : Fin 2 := ⟨bit_at x t, bit_at_lt_two _ _⟩

/-- The `Fin 4` row/column index used by the two-qubit expansion. -/
def bitF2 (x : ℕ) (c t : ℕ) : Fin 4 :=
  ⟨2 * bit_at x c + bit_at x t, by
    have h1 := bit_at_lt_two x c
    have h2 := bit_at_lt_two x t
    omega⟩

lemma expand_single_apply (n : ℕ) (g : Matrix (Fin 2) (Fin 2) ℂ) (t : ℕ)
    (i j : Fin (2 ^ n)) :
    expand_single_qubit_gate n g t i j =
      if clear1 i.val t = clear1 j.val t then g (bitF i.val t) (bitF j.val t)
      else 0 := rfl

lemma expand_two_apply (n : ℕ) (g : Matrix (Fin 4) (Fin 4) ℂ) (c t : ℕ)
    (i j : Fin (2 ^ n)) :
    expand_two_qubit_gate n g c t i j =
      if clear2 i.val c t = clear2 j.val c t then
        g (bitF2 i.val c t) (bitF2 j.val c t)
      else 0 := rfl

open Matrix Complex Real

noncomputable section

lemma sum_eq_pair {M : Type*} [AddCommMonoid M] {m : ℕ} (a b : Fin m) (hab : a ≠ b)
    {f : Fin m → M} (h : ∀ c, c ≠ a → c ≠ b → f c = 0) :
    ∑ k, f k = f a + f b :=
  Finset.sum_eq_add a b hab (fun c _ hc => h c hc.1 hc.2)
    (fun h' => absurd (Finset.mem_univ _) h') (fun h' => absurd (Finset.mem_univ _) h')

lemma expand_single_unitary {n t : ℕ} (ht : t < n) {g : Matrix (Fin 2) (Fin 2) ℂ}
    (hg : is_unitary g) : is_unitary (expand_single_qubit_gate n g t) := by
  have hpow : 0 < 2 ^ t := Nat.pos_pow_of_pos _ (by norm_num)
  set E := expand_single_qubit_gate n g t with hE
  have hEapply : ∀ a b : Fin (2 ^ n), E a b =
      if clear1 a.val t = clear1 b.val t then g (bitF a.val t) (bitF b.val t)
      else 0 := fun a b => rfl
  ext i j
  rw [Matrix.mul_apply]
  by_cases hij : clear1 i.val t = clear1 j.val t
  · have hi2 : (i : ℕ) < 2 ^ n := i.isLt
    have hk0lt : clear1 i.val t + 2 ^ t * 0 < 2 ^ n :=
      clear1_add_bit_lt hi2 ht (by norm_num)
    have hk1lt : clear1 i.val t + 2 ^ t * 1 < 2 ^ n :=
      clear1_add_bit_lt hi2 ht (by norm_num)
    set k0 : Fin (2 ^ n) := ⟨clear1 i.val t + 2 ^ t * 0, hk0lt⟩ with hk0
    set k1 : Fin (2 ^ n) := ⟨clear1 i.val t + 2 ^ t * 1, hk1lt⟩ with hk1
    have hne : k0 ≠ k1 := by
      rw [hk0, hk1, Ne, Fin.mk.injEq]
      omega
    have hzero : ∀ c : Fin (2 ^ n), c ≠ k0 → c ≠ k1 → E.conjTranspose i c * E c j = 0 := by
      intro c hc0 hc1
      rw [Matrix.conjTranspose_apply, hEapply]
      by_cases hc : clear1 c.val t = clear1 i.val t
      · exfalso
        have hrec := recon1 c.val t
        rw [hc] at hrec
        have hbl := bit_at_lt_two c.val t
        have hb01 : bit_at c.val t = 0 ∨ bit_at c.val t = 1 := by omega
        rcases hb01 with hbv | hbv <;> rw [hbv] at hrec
        · exact hc0 (Fin.ext (by rw [hk0]; exact hrec))
        · exact hc1 (Fin.ext (by rw [hk1]; exact hrec))
      · rw [if_neg hc, star_zero, zero_mul]
    rw [sum_eq_pair k0 k1 hne hzero]
    have hb0 := clear1_add_bit (x := i.val) (t := t) (β := 0) (by norm_num)
    have hb1 := clear1_add_bit (x := i.val) (t := t) (β := 1) (by norm_num)
    have e0i : E k0 i = g 0 (bitF i.val t) := by
      rw [hEapply, if_pos hb0.1]
      congr 1
      exact Fin.ext (by simpa using hb0.2)
    have e0j : E k0 j = g 0 (bitF j.val t) := by
      rw [hEapply, if_pos (hb0.1.trans hij)]
      congr 1
      exact Fin.ext (by simpa using hb0.2)
    have e1i : E k1 i = g 1 (bitF i.val t) := by
      rw [hEapply, if_pos hb1.1]
      congr 1
      exact Fin.ext (by simpa using hb1.2)
    have e1j : E k1 j = g 1 (bitF j.val t) := by
      rw [hEapply, if_pos (hb1.1.trans hij)]
      congr 1
      exact Fin.ext (by simpa using hb1.2)
    rw [Matrix.conjTranspose_apply, Matrix.conjTranspose_apply, e0i, e0j, e1i, e1j]
    have hgg : star (g 0 (bitF i.val t)) * g 0 (bitF j.val t) +
        star (g 1 (bitF i.val t)) * g 1 (bitF j.val t) =
        (g.conjTranspose * g) (bitF i.val t) (bitF j.val t) := by
      rw [Matrix.mul_apply, Fin.sum_univ_two]
      simp [Matrix.conjTranspose_apply]
    rw [hgg, hg]
    have hiff : i = j ↔ bitF i.val t = bitF j.val t := by
      constructor
      · intro h; rw [h]
      · intro h
        have hbit : bit_at i.val t = bit_at j.val t := by
          have h2 := congrArg Fin.val h
          simpa [bitF] using h2
        have hri := recon1 i.val t
        have hrj := recon1 j.val t
        rw [← hbit, ← hij] at hrj
        exact Fin.ext (by omega)
    rw [Matrix.one_apply, Matrix.one_apply]
    by_cases h : i = j
    · rw [if_pos h, if_pos (hiff.mp h)]
    · rw [if_neg h, if_neg (fun hb2 => h (hiff.mpr hb2))]
  · rw [Finset.sum_eq_zero, eq_comm]
    · exact Matrix.one_apply_ne (fun h => hij (by rw [h]))
    · intro c _
      rw [Matrix.conjTranspose_apply, hEapply, hEapply]
      by_cases hc : clear1 c.val t = clear1 i.val t
      · rw [if_neg (fun h2 : clear1 c.val t = clear1 j.val t => hij (hc.symm.trans h2)),
          mul_zero]
      · rw [if_neg hc, star_zero, zero_mul]

lemma sum_eq_four {M : Type*} [AddCommMonoid M] {m : ℕ} (a b c d : Fin m)
    (hab : a ≠ b) (hac : a ≠ c) (had : a ≠ d) (hbc : b ≠ c) (hbd : b ≠ d)
    (hcd : c ≠ d) {f : Fin m → M}
    (h : ∀ e, e ≠ a → e ≠ b → e ≠ c → e ≠ d → f e = 0) :
    ∑ k, f k = f a + f b + f c + f d := by
  have h1 : ∑ k, f k = ({a, b, c, d} : Finset (Fin m)).sum f := by
    refine (Finset.sum_subset (Finset.subset_univ _) ?_).symm
    intro e _ he
    simp only [Finset.mem_insert, Finset.mem_singleton, not_or] at he
    exact h e he.1 he.2.1 he.2.2.1 he.2.2.2
  rw [h1, Finset.sum_insert (by simp [hab, hac, had]),
    Finset.sum_insert (by simp [hbc, hbd]), Finset.sum_insert (by simp [hcd]),
    Finset.sum_singleton, ← add_assoc, ← add_assoc]

lemma expand_two_unitary {n c t : ℕ} (hct : c ≠ t) (hc : c < n) (ht : t < n)
    {g : Matrix (Fin 4) (Fin 4) ℂ} (hg : is_unitary g) :
    is_unitary (expand_two_qubit_gate n g c t) := by
  have hpc : 0 < 2 ^ c := Nat.pos_pow_of_pos _ (by norm_num)
  have hpt : 0 < 2 ^ t := Nat.pos_pow_of_pos _ (by norm_num)
  have hcpow : (2 : ℕ) ^ c ≠ 2 ^ t := by
    intro h
    exact hct (Nat.pow_right_injective (by norm_num) h)
  set E := expand_two_qubit_gate n g c t with hE
  have hEapply : ∀ a b : Fin (2 ^ n), E a b =
      if clear2 a.val c t = clear2 b.val c t then
        g (bitF2 a.val c t) (bitF2 b.val c t)
      else 0 := fun a b => rfl
  ext i j
  rw [Matrix.mul_apply]
  by_cases hij : clear2 i.val c t = clear2 j.val c t
  · have hi2 : (i : ℕ) < 2 ^ n := i.isLt
    have hlt : ∀ β γ : ℕ, β < 2 → γ < 2 →
        clear2 i.val c t + 2 ^ c * β + 2 ^ t * γ < 2 ^ n := fun β γ hβ hγ =>
      clear2_add_bits_lt hct hc ht hi2 hβ hγ
    set k00 : Fin (2 ^ n) :=
      ⟨clear2 i.val c t + 2 ^ c * 0 + 2 ^ t * 0, hlt 0 0 (by norm_num) (by norm_num)⟩
      with hk00
    set k01 : Fin (2 ^ n) :=
      ⟨clear2 i.val c t + 2 ^ c * 0 + 2 ^ t * 1, hlt 0 1 (by norm_num) (by norm_num)⟩
      with hk01
    set k10 : Fin (2 ^ n) :=
      ⟨clear2 i.val c t + 2 ^ c * 1 + 2 ^ t * 0, hlt 1 0 (by norm_num) (by norm_num)⟩
      with hk10
    set k11 : Fin (2 ^ n) :=
      ⟨clear2 i.val c t + 2 ^ c * 1 + 2 ^ t * 1, hlt 1 1 (by norm_num) (by norm_num)⟩
      with hk11
    have hb00 := clear2_add_bits (x := i.val) hct (β := 0) (γ := 0)
      (by norm_num) (by norm_num)
    have hb01 := clear2_add_bits (x := i.val) hct (β := 0) (γ := 1)
      (by norm_num) (by norm_num)
    have hb10 := clear2_add_bits (x := i.val) hct (β := 1) (γ := 0)
      (by norm_num) (by norm_num)
    have hb11 := clear2_add_bits (x := i.val) hct (β := 1) (γ := 1)
      (by norm_num) (by norm_num)
    have hdist : ∀ β γ β' γ' : ℕ, β < 2 → γ < 2 → β' < 2 → γ' < 2 →
        (β, γ) ≠ (β', γ') →
        clear2 i.val c t + 2 ^ c * β + 2 ^ t * γ ≠
          clear2 i.val c t + 2 ^ c * β' + 2 ^ t * γ' := by
      intro β γ β' γ' hβ hγ hβ' hγ' hne heq
      have e1 := (clear2_add_bits (x := i.val) hct hβ hγ).2.1
      have e2 := (clear2_add_bits (x := i.val) hct hβ' hγ').2.1
      have e3 := (clear2_add_bits (x := i.val) hct hβ hγ).2.2
      have e4 := (clear2_add_bits (x := i.val) hct hβ' hγ').2.2
      rw [heq] at e1 e3
      apply hne
      rw [e1.symm.trans e2, e3.symm.trans e4]
    have hzero : ∀ e : Fin (2 ^ n), e ≠ k00 → e ≠ k01 → e ≠ k10 → e ≠ k11 →
        E.conjTranspose i e * E e j = 0 := by
      intro e he00 he01 he10 he11
      rw [Matrix.conjTranspose_apply, hEapply]
      by_cases hce : clear2 e.val c t = clear2 i.val c t
      · exfalso
        have hrec := recon2_general hct e.val
        rw [hce] at hrec
        have hbc2 := bit_at_lt_two e.val c
        have hbt2 := bit_at_lt_two e.val t
        have hc01 : bit_at e.val c = 0 ∨ bit_at e.val c = 1 := by omega
        have ht01 : bit_at e.val t = 0 ∨ bit_at e.val t = 1 := by omega
        rcases hc01 with hcv | hcv <;> rcases ht01 with htv | htv <;>
          rw [hcv, htv] at hrec
        · exact he00 (Fin.ext (by rw [hk00]; exact hrec))
        · exact he01 (Fin.ext (by rw [hk01]; exact hrec))
        · exact he10 (Fin.ext (by rw [hk10]; exact hrec))
        · exact he11 (Fin.ext (by rw [hk11]; exact hrec))
      · rw [if_neg hce, star_zero, zero_mul]
    rw [sum_eq_four k00 k01 k10 k11
      (by rw [hk00, hk01, Ne, Fin.mk.injEq]
          exact hdist 0 0 0 1 (by norm_num) (by norm_num) (by norm_num) (by norm_num)
            (by decide))
      (by rw [hk00, hk10, Ne, Fin.mk.injEq]
          exact hdist 0 0 1 0 (by norm_num) (by norm_num) (by norm_num) (by norm_num)
            (by decide))
      (by rw [hk00, hk11, Ne, Fin.mk.injEq]
          exact hdist 0 0 1 1 (by norm_num) (by norm_num) (by norm_num) (by norm_num)
            (by decide))
      (by rw [hk01, hk10, Ne, Fin.mk.injEq]
          exact hdist 0 1 1 0 (by norm_num) (by norm_num) (by norm_num) (by norm_num)
            (by decide))
      (by rw [hk01, hk11, Ne, Fin.mk.injEq]
          exact hdist 0 1 1 1 (by norm_num) (by norm_num) (by norm_num) (by norm_num)
            (by decide))
      (by rw [hk10, hk11, Ne, Fin.mk.injEq]
          exact hdist 1 0 1 1 (by norm_num) (by norm_num) (by norm_num) (by norm_num)
            (by decide))
      hzero]
    have hbF : ∀ β γ : ℕ, ∀ hβ : β < 2, ∀ hγ : γ < 2,
        bitF2 (clear2 i.val c t + 2 ^ c * β + 2 ^ t * γ) c t =
          (⟨2 * β + γ, by omega⟩ : Fin 4) := by
      intro β γ hβ hγ
      have h1 := (clear2_add_bits (x := i.val) hct hβ hγ).2.1
      have h2 := (clear2_add_bits (x := i.val) hct hβ hγ).2.2
      exact Fin.ext (by simp [bitF2, h1, h2])
    have heval : ∀ β γ : ℕ, ∀ hβ : β < 2, ∀ hγ : γ < 2, ∀ w : Fin (2 ^ n),
        clear2 w.val c t = clear2 i.val c t →
        E ⟨clear2 i.val c t + 2 ^ c * β + 2 ^ t * γ, hlt β γ hβ hγ⟩ w =
          g ⟨2 * β + γ, by omega⟩ (bitF2 w.val c t) := by
      intro β γ hβ hγ w hw
      rw [hEapply]
      rw [if_pos (by
        show clear2 (clear2 i.val c t + 2 ^ c * β + 2 ^ t * γ) c t = clear2 w.val c t
        rw [(clear2_add_bits (x := i.val) hct hβ hγ).1, hw])]
      congr 1
      exact hbF β γ hβ hγ
    have e00i := heval 0 0 (by norm_num) (by norm_num) i rfl
    have e00j := heval 0 0 (by norm_num) (by norm_num) j hij.symm
    have e01i := heval 0 1 (by norm_num) (by norm_num) i rfl
    have e01j := heval 0 1 (by norm_num) (by norm_num) j hij.symm
    have e10i := heval 1 0 (by norm_num) (by norm_num) i rfl
    have e10j := heval 1 0 (by norm_num) (by norm_num) j hij.symm
    have e11i := heval 1 1 (by norm_num) (by norm_num) i rfl
    have e11j := heval 1 1 (by norm_num) (by norm_num) j hij.symm
    rw [Matrix.conjTranspose_apply, Matrix.conjTranspose_apply,
      Matrix.conjTranspose_apply, Matrix.conjTranspose_apply]
    rw [hk00, hk01, hk10, hk11, e00i, e00j, e01i, e01j, e10i, e10j, e11i, e11j]
    have hgg : star (g ⟨2 * 0 + 0, by omega⟩ (bitF2 i.val c t)) *
          g ⟨2 * 0 + 0, by omega⟩ (bitF2 j.val c t) +
        star (g ⟨2 * 0 + 1, by omega⟩ (bitF2 i.val c t)) *
          g ⟨2 * 0 + 1, by omega⟩ (bitF2 j.val c t) +
        star (g ⟨2 * 1 + 0, by omega⟩ (bitF2 i.val c t)) *
          g ⟨2 * 1 + 0, by omega⟩ (bitF2 j.val c t) +
        star (g ⟨2 * 1 + 1, by omega⟩ (bitF2 i.val c t)) *
          g ⟨2 * 1 + 1, by omega⟩ (bitF2 j.val c t) =
        (g.conjTranspose * g) (bitF2 i.val c t) (bitF2 j.val c t) := by
      rw [Matrix.mul_apply, Fin.sum_univ_four]
      simp only [Matrix.conjTranspose_apply]
      rfl
    rw [hgg, hg]
    have hiff : i = j ↔ bitF2 i.val c t = bitF2 j.val c t := by
      constructor
      · intro h; rw [h]
      · intro h
        have hvals := congrArg Fin.val h
        simp only [bitF2] at hvals
        have hbci := bit_at_lt_two i.val c
        have hbti := bit_at_lt_two i.val t
        have hbcj := bit_at_lt_two j.val c
        have hbtj := bit_at_lt_two j.val t
        have hbc3 : bit_at i.val c = bit_at j.val c := by omega
        have hbt3 : bit_at i.val t = bit_at j.val t := by omega
        have hri := recon2_general hct i.val
        have hrj := recon2_general hct j.val
        rw [← hbc3, ← hbt3, ← hij] at hrj
        exact Fin.ext (by omega)
    rw [Matrix.one_apply, Matrix.one_apply]
    by_cases h : i = j
    · rw [if_pos h, if_pos (hiff.mp h)]
    · rw [if_neg h, if_neg (fun hb2 => h (hiff.mpr hb2))]
  · rw [Finset.sum_eq_zero, eq_comm]
    · exact Matrix.one_apply_ne (fun h => hij (by rw [h]))
    · intro e _
      rw [Matrix.conjTranspose_apply, hEapply, hEapply]
      by_cases hce : clear2 e.val c t = clear2 i.val c t
      · rw [if_neg (fun h2 : clear2 e.val c t = clear2 j.val c t =>
          hij (hce.symm.trans h2)), mul_zero]
      · rw [if_neg hce, star_zero, zero_mul]

/-! ### Circuit-level unitarity -/

lemma is_unitary_mul {d : ℕ} {A B : Matrix (Fin d) (Fin d) ℂ}
    (hA : is_unitary A) (hB : is_unitary B) : is_unitary (A * B) := by
  unfold is_unitary at *
  rw [Matrix.conjTranspose_mul, Matrix.mul_assoc,
    ← Matrix.mul_assoc A.conjTranspose, hA, Matrix.one_mul, hB]

lemma is_unitary_one {d : ℕ} : is_unitary (1 : Matrix (Fin d) (Fin d) ℂ) := by
  unfold is_unitary
  rw [Matrix.conjTranspose_one, Matrix.one_mul]

/-- A gate application that `_get_gate_matrix` can expand and whose qubit
indices are in range (and distinct, for two-qubit gates). -/
def valid_gate_application (n : ℕ) (ga : GateApplication) : Prop :=
  (ga.gate ∈ ["H", "X", "Y", "Z", "S", "T"] ∧ ∃ q, ga.qubits = [q] ∧ q < n) ∨
  (ga.gate ∈ ["RX", "RY", "RZ"] ∧ ga.params ≠ [] ∧
    ∃ q, ga.qubits = [q] ∧ q < n) ∨
  (ga.gate ∈ ["CNOT", "CZ", "SWAP"] ∧
    ∃ c t, ga.qubits = [c, t] ∧ c < n ∧ t < n ∧ c ≠ t)

lemma valid_gate_matrix {n : ℕ} {ga : GateApplication}
    (h : valid_gate_application n ga) :
    ∃ G, get_gate_matrix n ga = some G ∧ is_unitary G := by
  rcases ga with ⟨name, qubits, params⟩
  rcases h with ⟨hmem, q, hq, hqn⟩ | ⟨hmem, hp, q, hq, hqn⟩ | ⟨hmem, c, t, hq, hc, ht, hct⟩
  · obtain rfl : qubits = [q] := hq
    simp only [List.mem_cons, List.mem_singleton, List.not_mem_nil, or_false] at hmem
    rcases hmem with rfl | rfl | rfl | rfl | rfl | rfl
    · exact ⟨_, by simp [get_gate_matrix], expand_single_unitary hqn HADAMARD_unitary⟩
    · exact ⟨_, by simp [get_gate_matrix], expand_single_unitary hqn PAULI_X_unitary⟩
    · exact ⟨_, by simp [get_gate_matrix], expand_single_unitary hqn PAULI_Y_unitary⟩
    · exact ⟨_, by simp [get_gate_matrix], expand_single_unitary hqn PAULI_Z_unitary⟩
    · exact ⟨_, by simp [get_gate_matrix], expand_single_unitary hqn S_GATE_unitary⟩
    · exact ⟨_, by simp [get_gate_matrix], expand_single_unitary hqn T_GATE_unitary⟩
  · obtain rfl : qubits = [q] := hq
    rcases params with _ | ⟨θ, rest⟩
    · exact absurd rfl hp
    simp only [List.mem_cons, List.mem_singleton, List.not_mem_nil, or_false] at hmem
    rcases hmem with rfl | rfl | rfl
    · exact ⟨_, by simp [get_gate_matrix], expand_single_unitary hqn (rx_gate_unitary θ)⟩
    · exact ⟨_, by simp [get_gate_matrix], expand_single_unitary hqn (ry_gate_unitary θ)⟩
    · exact ⟨_, by simp [get_gate_matrix], expand_single_unitary hqn (rz_gate_unitary θ)⟩
  · obtain rfl : qubits = [c, t] := hq
    simp only [List.mem_cons, List.mem_singleton, List.not_mem_nil, or_false] at hmem
    rcases hmem with rfl | rfl | rfl
    · exact ⟨_, by simp [get_gate_matrix], expand_two_unitary hct hc ht CNOT_GATE_unitary⟩
    · exact ⟨_, by simp [get_gate_matrix], expand_two_unitary hct hc ht CZ_GATE_unitary⟩
    · exact ⟨_, by simp [get_gate_matrix], expand_two_unitary hct hc ht SWAP_GATE_unitary⟩

lemma get_unitary_fold_unitary (n : ℕ) :
    ∀ (gates : List GateApplication) (U : Matrix (Fin (2 ^ n)) (Fin (2 ^ n)) ℂ),
      (∀ ga ∈ gates, ∃ G, get_gate_matrix n ga = some G ∧ is_unitary G) →
      is_unitary U →
      ∃ V, gates.foldl
          (fun acc gi => acc.bind fun u => (get_gate_matrix n gi).map fun g => g * u)
          (some U) = some V ∧ is_unitary V := by
  intro gates
  induction gates with
  | nil => exact fun U _ hU => ⟨U, rfl, hU⟩
  | cons ga rest ih =>
    intro U hall hU
    obtain ⟨G, hG, hGu⟩ := hall ga (List.mem_cons_self _ _)
    rw [List.foldl_cons]
    have hstep : (some U).bind
        (fun u => (get_gate_matrix n ga).map fun g => g * u) = some (G * U) := by
      rw [Option.some_bind, hG, Option.map_some']
    rw [hstep]
    exact ih (G * U) (fun g hg => hall g (List.mem_cons_of_mem _ hg))
      (is_unitary_mul hGu hU)

lemma get_unitary_fold_prod (n : ℕ) :
    ∀ (gates : List GateApplication) (U : Matrix (Fin (2 ^ n)) (Fin (2 ^ n)) ℂ),
      (∀ ga ∈ gates, (get_gate_matrix n ga).isSome) →
      gates.foldl
          (fun acc gi => acc.bind fun u => (get_gate_matrix n gi).map fun g => g * u)
          (some U) =
        some ((gates.map fun ga => (get_gate_matrix n ga).getD 1).reverse.prod * U) := by
  intro gates
  induction gates with
  | nil =>
    intro U _
    simp
  | cons ga rest ih =>
    intro U hall
    obtain ⟨G, hG⟩ := Option.isSome_iff_exists.mp (hall ga (List.mem_cons_self _ _))
    rw [List.foldl_cons]
    have hstep : (some U).bind
        (fun u => (get_gate_matrix n ga).map fun g => g * u) = some (G * U) := by
      rw [Option.some_bind, hG, Option.map_some']
    rw [hstep, ih (G * U) (fun g hg => hall g (List.mem_cons_of_mem _ hg))]
    congr 1
    rw [List.map_cons, List.reverse_cons, List.prod_append, List.prod_singleton,
      hG, Option.getD_some, Matrix.mul_assoc]

/-! ### State utilities (source `quantum.py` lines 110-129) -/

/-- `np.linalg.norm(state)`: the Euclidean norm of a complex vector. -/
def norm_of (state : List ℂ) : ℝ := Real.sqrt ((state.map Complex.normSq).sum)

inductive QuantumError where
  | dimensionError : QuantumError
  | zeroNormError : QuantumError
deriving DecidableEq

section
open Classical

/-- `normalize_state`: raises (`zeroNormError`) on a zero-norm state, else
divides by the norm. -/
noncomputable def normalize_state (state : List ℂ) :
    Except QuantumError (List ℂ) :=
  if norm_of state = 0 then Except.error QuantumError.zeroNormError
  else Except.ok (state.map fun z => z / (norm_of state : ℂ))

/-- `state_to_bloch_vector`: dimension check, normalisation, then the Pauli
expectation values `x = 2 Re(s0* s1)`, `y = 2 Im(s0* s1)`,
`z = |s0|^2 - |s1|^2`. -/
noncomputable def state_to_bloch_vector (state : List ℂ) :
    Except QuantumError (ℝ × ℝ × ℝ) :=
  if state.length ≠ 2 then Except.error QuantumError.dimensionError
  else
    match normalize_state state with
    | Except.error e => Except.error e
    | Except.ok st =>
      let s0 := st.getD 0 0
      let s1 := st.getD 1 0
      Except.ok (2 * ((starRingEnd ℂ) s0 * s1).re,
        2 * ((starRingEnd ℂ) s0 * s1).im,
        Complex.abs s0 ^ 2 - Complex.abs s1 ^ 2)

end

/-! ### Canonical algorithms (source `quantum.py` lines 498-531, 681-774) -/

structure BellResult where
  final_state : Fin 4 → ℂ
  probabilities : Fin 4 → ℝ
  fidelity_with_bell : ℝ

/-- `create_bell_state()`: circuit `[H(0), CNOT(0,1)]` applied to `|00⟩`;
probabilities are `|amplitude|^2` and the fidelity is
`|vdot(final_state, [1,0,0,1]/sqrt(2))|^2`. -/
def create_bell_state : Option BellResult :=
  let circuit := ((QuantumCircuit.init 2).h 0).cnot 0 1
  let initial_state : Fin 4 → ℂ := ![1, 0, 0, 0]
  (get_unitary circuit).map fun unitary =>
    let final_state := unitary.mulVec initial_state
    { final_state := final_state
      probabilities := fun i => Complex.abs (final_state i) ^ 2
      fidelity_with_bell :=
        Complex.abs (∑ i, (starRingEnd ℂ) (final_state i) *
          (![1, 0, 0, 1] i / (Real.sqrt 2 : ℂ))) ^ 2 }

structure GroverResult where
  num_qubits : ℕ
  marked_item : ℕ
  iterations : ℕ
  success_probability : ℝ
  circuit_depth : ℕ

/-- One (oracle, diffusion) round of the Grover loop, as built by the source:
conditional `Z` on the last qubit when the marked item has its least
significant bit set, then `H X` on every qubit, a `CZ(0,1)` when
`num_qubits = 2`, then `X H` on every qubit. -/
def grover_iteration_body (n m : ℕ) (c0 : QuantumCircuit) : QuantumCircuit :=
  let c1 := if m &&& 1 = 1 then c0.z (n - 1) else c0
  let c2 := (List.range n).foldl (fun c i => (c.h i).x i) c1
  let c3 := if n = 2 then c2.cz 0 1 else c2
  (List.range n).foldl (fun c i => (c.x i).h i) c3

def grover_circuit (n m iters : ℕ) : QuantumCircuit :=
  let cinit := (List.range n).foldl (fun c i => c.h i) (QuantumCircuit.init n)
  (List.range iters).foldl (fun c _ => grover_iteration_body n m c) cinit

/-- `grover_search(num_qubits, marked_item)`: range check first, then
`iterations = int(pi * sqrt(2^n) / 4)` (truncation of a nonnegative float is
the floor) and `success_probability = sin((2k+1) asin(1/sqrt(2^n)))^2`. -/
noncomputable def grover_search (num_qubits marked_item : ℕ) :
    Except String GroverResult :=
  if marked_item ≥ 2 ^ num_qubits then
    Except.error "Marked item index too large for number of qubits"
  else
    let circuit := grover_circuit num_qubits marked_item
      ⌊π * Real.sqrt ((2 : ℝ) ^ num_qubits) / 4⌋₊
    let num_iterations := ⌊π * Real.sqrt ((2 : ℝ) ^ num_qubits) / 4⌋₊
    let success_prob := Real.sin ((2 * (num_iterations : ℝ) + 1) *
      Real.arcsin (1 / Real.sqrt ((2 : ℝ) ^ num_qubits))) ^ 2
    Except.ok ⟨num_qubits, marked_item, num_iterations, success_prob,
      circuit.gates.length⟩

/-- Python `str.lower()` (ASCII, as used for the Hamiltonian names). -/
def str_lower (s : String) : String := ⟨s.data.map Char.toLower⟩

inductive CustomResult where
  | ok (eigenvalues : List ℝ) (ground_state_energy : ℝ)
      (excited_state_energies : List ℝ) (degeneracy : ℕ) : CustomResult
  | error (msg : String) : CustomResult
deriving DecidableEq

/-- Model of the external `np.linalg.eigh` call on the 2×2 Hermitian matrices
reachable in `solve_custom_hamiltonian`: the ascending eigenvalues
`(tr ∓ sqrt(tr² - 4 det)) / 2` of the characteristic polynomial. -/
noncomputable def eigh_eigenvalues2 (M : Matrix (Fin 2) (Fin 2) ℂ) : List ℝ :=
  let tr := (M 0 0).re + (M 1 1).re
  let det := (M 0 0 * M 1 1 - M 0 1 * M 1 0).re
  let s := Real.sqrt (tr ^ 2 - 4 * det)
  [(tr - s) / 2, (tr + s) / 2]

section
open Classical

/-- The success branch of `solve_custom_hamiltonian`: sorted eigenvalues,
ground-state energy `eigenvalues[0]`, excited energies `eigenvalues[1:]`, and
`degeneracy = sum(|eigenvalues - eigenvalues[0]| < 1e-10)`. -/
noncomputable def eigh_result (H : Matrix (Fin 2) (Fin 2) ℂ) : CustomResult :=
  let eigenvalues := eigh_eigenvalues2 H
  CustomResult.ok eigenvalues (eigenvalues.headD 0) (eigenvalues.drop 1)
    (eigenvalues.countP fun x =>
      decide (|x - eigenvalues.headD 0| < 1 / 10 ^ 10))

end

/-- `solve_custom_hamiltonian`: recognises (case-insensitively) only
`pauli_z`, `pauli_x`, `pauli_y`; anything else becomes the error result the
source returns from its `except` block. -/
noncomputable def solve_custom_hamiltonian (hamiltonian : String) :
    CustomResult :=
  if str_lower hamiltonian = "pauli_z" then eigh_result PAULI_Z
  else if str_lower hamiltonian = "pauli_x" then eigh_result PAULI_X
  else if str_lower hamiltonian = "pauli_y" then eigh_result PAULI_Y
  else CustomResult.error
    ("Hamiltonian parsing not implemented for: " ++ hamiltonian)

/-! ### Claim theorems -/

/-- C9: Pauli algebra: `X·X = Y·Y = Z·Z = I` (the registry identity, which is
the identity matrix), `commutator(X,Y) = 2i·Z`, `commutator(Y,Z) = 2i·X`,
`commutator(Z,X) = 2i·Y`, and `commutator(X,X)` is the zero matrix, where
`commutator(A,B) = AB - BA`. -/
theorem C9_pauli_algebra :
    PAULI_X * PAULI_X = PAULI_I ∧ PAULI_Y * PAULI_Y = PAULI_I ∧
    PAULI_Z * PAULI_Z = PAULI_I ∧ PAULI_I = (1 : Matrix (Fin 2) (Fin 2) ℂ) ∧
    Quantum.commutator PAULI_X PAULI_Y = (2 * I) • PAULI_Z ∧
    Quantum.commutator PAULI_Y PAULI_Z = (2 * I) • PAULI_X ∧
    Quantum.commutator PAULI_Z PAULI_X = (2 * I) • PAULI_Y ∧
    Quantum.commutator PAULI_X PAULI_X = 0 := by
  refine ⟨?_, ?_, ?_, ?_, ?_, ?_, ?_, ?_⟩ <;>
    · ext i j
      fin_cases i <;> fin_cases j <;>
        simp [PAULI_X, PAULI_Y, PAULI_Z, PAULI_I, Quantum.commutator,
          Matrix.mul_apply, Fin.sum_univ_two, Matrix.one_apply,
          Matrix.smul_apply] <;>
        first
          | ring1
          | linear_combination (2 : ℂ) * Complex.I_mul_I
          | linear_combination (-2 : ℂ) * Complex.I_mul_I

/-- C6 (counterexample): `add_gate` on a 1-qubit circuit with the out-of-range
qubit list `[5]` does not fail and does not leave the circuit unchanged: it
appends the application.  No arity or index validation exists in the method. -/
theorem C6_counterexample :
    ((QuantumCircuit.init 1).add_gate "H" [5] []).gates = [⟨"H", [5], []⟩] ∧
    ((QuantumCircuit.init 1).add_gate "H" [5] []).gates ≠
      (QuantumCircuit.init 1).gates := by
  refine ⟨rfl, ?_⟩
  simp [QuantumCircuit.init, QuantumCircuit.add_gate]

/-- C6 (amended): `add_gate(name, qubits, params)` performs no validation at
all; for every circuit and every argument list it unconditionally appends the
`GateApplication` and leaves `num_qubits` and `measurements` unchanged. -/
theorem C6_add_gate_appends (c : QuantumCircuit) (gate_name : String)
    (qubits : List ℕ) (params : List ℝ) :
    (c.add_gate gate_name qubits params).num_qubits = c.num_qubits ∧
    (c.add_gate gate_name qubits params).gates =
      c.gates ++ [⟨gate_name, qubits, params⟩] ∧
    (c.add_gate gate_name qubits params).measurements = c.measurements :=
  ⟨rfl, rfl, rfl⟩

/-- C2: entry formula of the expansions.  A single-qubit gate `g` on target
`t` has entry `(i,j)` equal to `g[bit_t i, bit_t j]` when `i` and `j` agree on
every bit except `t` and `0` otherwise; a two-qubit gate `g` on control `c`
and target `t` (distinct) has entry `(i,j)` equal to
`g[2·bit_c i + bit_t i, 2·bit_c j + bit_t j]` when `i` and `j` agree on every
bit except `c` and `t`, and `0` otherwise. -/
theorem C2_gate_expansion_formula (n : ℕ) (g2 : Matrix (Fin 2) (Fin 2) ℂ)
    (g4 : Matrix (Fin 4) (Fin 4) ℂ) (t c : ℕ) (hct : c ≠ t) (i j : Fin (2 ^ n)) :
    ((∀ b, b ≠ t → i.val.testBit b = j.val.testBit b) →
      expand_single_qubit_gate n g2 t i j = g2 (bitF i.val t) (bitF j.val t)) ∧
    (¬ (∀ b, b ≠ t → i.val.testBit b = j.val.testBit b) →
      expand_single_qubit_gate n g2 t i j = 0) ∧
    ((∀ b, b ≠ c → b ≠ t → i.val.testBit b = j.val.testBit b) →
      expand_two_qubit_gate n g4 c t i j =
        g4 (bitF2 i.val c t) (bitF2 j.val c t)) ∧
    (¬ (∀ b, b ≠ c → b ≠ t → i.val.testBit b = j.val.testBit b) →
      expand_two_qubit_gate n g4 c t i j = 0) := by
  refine ⟨?_, ?_, ?_, ?_⟩
  · intro h
    rw [expand_single_apply, if_pos ((clear1_eq_iff_testBit _ _ _).mpr h)]
  · intro h
    rw [expand_single_apply,
      if_neg (fun hcl => h ((clear1_eq_iff_testBit _ _ _).mp hcl))]
  · intro h
    rw [expand_two_apply, if_pos ((clear2_eq_iff_testBit hct _ _).mpr h)]
  · intro h
    rw [expand_two_apply,
      if_neg (fun hcl => h ((clear2_eq_iff_testBit hct _ _).mp hcl))]

theorem C2_gate_expansion_formula_witness :
    ((1 : ℕ) ≠ 0) ∧ (∀ b, b ≠ 0 → Nat.testBit 0 b = Nat.testBit 1 b) ∧
    expand_single_qubit_gate 2 PAULI_X 0 ⟨0, by norm_num⟩ ⟨1, by norm_num⟩ =
      PAULI_X (bitF 0 0) (bitF 1 0) := by
  have hb : ∀ b, b ≠ 0 → Nat.testBit 0 b = Nat.testBit 1 b := by
    intro b hb0
    rw [Nat.zero_testBit, show (1 : ℕ) = 2 ^ 0 from rfl, Nat.testBit_two_pow]
    simp [eq_comm, hb0]
  exact ⟨by norm_num, hb,
    (C2_gate_expansion_formula 2 PAULI_X CNOT_GATE 0 1 (by norm_num)
      ⟨0, by norm_num⟩ ⟨1, by norm_num⟩).1 hb⟩

/-- C3: `get_unitary()` starts from the identity and left-multiplies the
expansion of each gate application in order, so it returns the matrix product
`E(G_k) · ... · E(G_1)` (earliest-added gate rightmost, hence acting first on
a state vector). -/
theorem C3_composition_order (c : QuantumCircuit)
    (h : ∀ ga ∈ c.gates, (get_gate_matrix c.num_qubits ga).isSome) :
    get_unitary c =
      some ((c.gates.map fun ga =>
        (get_gate_matrix c.num_qubits ga).getD 1).reverse.prod) := by
  rw [get_unitary, get_unitary_fold_prod c.num_qubits c.gates 1 h, Matrix.mul_one]

theorem C3_composition_order_witness :
    (∀ ga ∈ (((QuantumCircuit.init 2).h 0).cnot 0 1).gates,
      (get_gate_matrix 2 ga).isSome) ∧
    get_unitary (((QuantumCircuit.init 2).h 0).cnot 0 1) =
      some (((((QuantumCircuit.init 2).h 0).cnot 0 1).gates.map fun ga =>
        (get_gate_matrix 2 ga).getD 1).reverse.prod) := by
  have h : ∀ ga ∈ (((QuantumCircuit.init 2).h 0).cnot 0 1).gates,
      (get_gate_matrix 2 ga).isSome := by
    intro ga hga
    simp only [QuantumCircuit.init, QuantumCircuit.h, QuantumCircuit.cnot,
      QuantumCircuit.add_gate, List.nil_append, List.cons_append,
      List.mem_cons, List.mem_singleton, List.not_mem_nil, or_false] at hga
    rcases hga with rfl | rfl <;> simp [get_gate_matrix]
  exact ⟨h, C3_composition_order _ h⟩

/-- C1 (amended): every gate matrix in the registry is unitary, and for every
circuit all of whose gate applications are valid — a name `_get_gate_matrix`
supports (`H,X,Y,Z,S,T`, rotations with a parameter, `CNOT,CZ,SWAP`; the
registry names `I`, `PHASE` and `TOFFOLI` are rejected by `get_unitary`) with
exact arity, in-range and (for two-qubit gates) distinct qubit indices —
`get_unitary()` returns a matrix and it is unitary. -/
theorem C1_unitarity_closure_amended :
    (∀ p ∈ QUANTUM_GATES, is_unitary p.2.2) ∧
    ∀ c : QuantumCircuit,
      (∀ ga ∈ c.gates, valid_gate_application c.num_qubits ga) →
      ∃ U, get_unitary c = some U ∧ is_unitary U := by
  constructor
  · intro p hp
    fin_cases hp
    · exact PAULI_I_unitary
    · exact PAULI_X_unitary
    · exact PAULI_Y_unitary
    · exact PAULI_Z_unitary
    · exact HADAMARD_unitary
    · exact S_GATE_unitary
    · exact T_GATE_unitary
    · exact PHASE_GATE_unitary
    · exact CNOT_GATE_unitary
    · exact CZ_GATE_unitary
    · exact SWAP_GATE_unitary
    · exact TOFFOLI_GATE_unitary
  · intro c hvalid
    exact get_unitary_fold_unitary c.num_qubits c.gates 1
      (fun ga hga => valid_gate_matrix (hvalid ga hga)) is_unitary_one

theorem C1_unitarity_closure_amended_witness :
    (∀ ga ∈ (((QuantumCircuit.init 2).h 0).cnot 0 1).gates,
      valid_gate_application 2 ga) ∧
    ∃ U, get_unitary (((QuantumCircuit.init 2).h 0).cnot 0 1) = some U ∧
      is_unitary U := by
  have hv : ∀ ga ∈ (((QuantumCircuit.init 2).h 0).cnot 0 1).gates,
      valid_gate_application 2 ga := by
    intro ga hga
    simp only [QuantumCircuit.init, QuantumCircuit.h, QuantumCircuit.cnot,
      QuantumCircuit.add_gate, List.nil_append, List.cons_append,
      List.mem_cons, List.mem_singleton, List.not_mem_nil, or_false] at hga
    rcases hga with rfl | rfl
    · exact Or.inl ⟨by simp, 0, rfl, by norm_num⟩
    · exact Or.inr (Or.inr ⟨by simp, 0, 1, rfl, by norm_num, by norm_num,
        by norm_num⟩)
  exact ⟨hv, C1_unitarity_closure_amended.2 _ hv⟩

/-- C1 (counterexample to the claim as stated): the 1-qubit circuit containing
the single application `CNOT [0,0]` uses only registry gate names, yet
`get_unitary` returns the matrix `[[1,0],[0,0]]`, which is not unitary: entry
`(1,1)` of `U†U` is `0`, at distance `1` from the identity entry — far outside
the `1e-10` tolerance of `is_unitary`. -/
theorem C1_counterexample :
    "CNOT" ∈ QUANTUM_GATES.map Prod.fst ∧
    get_unitary ⟨1, [⟨"CNOT", [0, 0], []⟩], []⟩ =
      some (expand_two_qubit_gate 1 CNOT_GATE 0 0) ∧
    ¬ is_unitary (expand_two_qubit_gate 1 CNOT_GATE 0 0) ∧
    Complex.abs (((expand_two_qubit_gate 1 CNOT_GATE 0 0).conjTranspose *
        expand_two_qubit_gate 1 CNOT_GATE 0 0) 1 1 -
      (1 : Matrix (Fin (2 ^ 1)) (Fin (2 ^ 1)) ℂ) 1 1) = 1 := by
  have hEmat : expand_two_qubit_gate 1 CNOT_GATE 0 0 = !![1, 0; 0, 0] := by
    ext i j
    fin_cases i <;> fin_cases j <;> rfl
  refine ⟨by simp [QUANTUM_GATES], ?_, ?_, ?_⟩
  · simp [get_unitary, get_gate_matrix]
  · rw [is_unitary, hEmat]
    intro h
    have h11 := congrFun (congrFun h 1) 1
    simp [Matrix.mul_apply, Fin.sum_univ_two, Matrix.conjTranspose_apply,
      Matrix.one_apply, Matrix.vecHead, Matrix.vecTail] at h11
  · rw [hEmat]
    simp [Matrix.mul_apply, Fin.sum_univ_two, Matrix.conjTranspose_apply,
      Matrix.one_apply, Matrix.vecHead, Matrix.vecTail]

/-- C8: `grover_search` fails, with the range-error message, exactly when
`marked_item ≥ 2^num_qubits`; the guard is the first thing evaluated, and in
the error case no result is constructed. -/
theorem C8_grover_range_error (n m : ℕ) :
    (m ≥ 2 ^ n → grover_search n m =
      Except.error "Marked item index too large for number of qubits") ∧
    (m < 2 ^ n → ∃ r, grover_search n m = Except.ok r) := by
  constructor
  · intro h
    rw [grover_search, if_pos h]
  · intro h
    exact ⟨_, by rw [grover_search, if_neg (by omega)]⟩

theorem C8_grover_range_error_witness :
    ((4 : ℕ) ≥ 2 ^ 2 ∧ grover_search 2 4 =
      Except.error "Marked item index too large for number of qubits") ∧
    ((1 : ℕ) < 2 ^ 2 ∧ ∃ r, grover_search 2 1 = Except.ok r) :=
  ⟨⟨by norm_num, (C8_grover_range_error 2 4).1 (by norm_num)⟩,
    ⟨by norm_num, (C8_grover_range_error 2 1).2 (by norm_num)⟩⟩

/-- C5: for `1 ≤ n` and `m < 2^n`, `grover_search n m` succeeds with
`iterations = ⌊π/4 · √(2^n)⌋` and
`success_probability = sin²((2·iterations+1)·arcsin(1/√(2^n)))`, a value in
`[0, 1]`; for `n = 2` the iteration count is `1`. -/
theorem C5_grover_parameters (n m : ℕ) (h1 : 1 ≤ n) (h2 : m < 2 ^ n) :
    ∃ r, grover_search n m = Except.ok r ∧
      r.iterations = ⌊π / 4 * Real.sqrt ((2 : ℝ) ^ n)⌋₊ ∧
      r.success_probability = Real.sin ((2 * (r.iterations : ℝ) + 1) *
        Real.arcsin (1 / Real.sqrt ((2 : ℝ) ^ n))) ^ 2 ∧
      0 ≤ r.success_probability ∧ r.success_probability ≤ 1 ∧
      (n = 2 → r.iterations = 1) := by
  refine ⟨_, by rw [grover_search, if_neg (by omega)], ?_, rfl, ?_, ?_, ?_⟩
  · show ⌊π * Real.sqrt ((2 : ℝ) ^ n) / 4⌋₊ = ⌊π / 4 * Real.sqrt ((2 : ℝ) ^ n)⌋₊
    congr 1
    ring
  · exact sq_nonneg _
  · exact Real.sin_sq_le_one _
  · intro hn
    subst hn
    show ⌊π * Real.sqrt ((2 : ℝ) ^ 2) / 4⌋₊ = 1
    have h4 : Real.sqrt ((2 : ℝ) ^ 2) = 2 := Real.sqrt_sq (by norm_num)
    rw [h4, Nat.floor_eq_iff (by positivity)]
    constructor
    · nlinarith [Real.pi_gt_three]
    · nlinarith [Real.pi_lt_d2]

theorem C5_grover_parameters_witness :
    ((1 : ℕ) ≤ 2 ∧ (1 : ℕ) < 2 ^ 2) ∧
    ∃ r, grover_search 2 1 = Except.ok r ∧
      r.iterations = ⌊π / 4 * Real.sqrt ((2 : ℝ) ^ 2)⌋₊ ∧
      r.success_probability = Real.sin ((2 * (r.iterations : ℝ) + 1) *
        Real.arcsin (1 / Real.sqrt ((2 : ℝ) ^ 2))) ^ 2 ∧
      0 ≤ r.success_probability ∧ r.success_probability ≤ 1 ∧
      (2 = 2 → r.iterations = 1) :=
  ⟨⟨by norm_num, by norm_num⟩,
    C5_grover_parameters 2 1 (by norm_num) (by norm_num)⟩

/-- C7: `solve_custom_hamiltonian` surfaces an error result for every name
whose lowercasing is not one of `pauli_x`, `pauli_y`, `pauli_z`, and for the
recognised names returns the ascending eigenvalues `[-1, 1]`, ground-state
energy `-1`, excited energies `[1]`, and degeneracy `1`; moreover `[-1, 1]`
are exactly the roots of each Pauli matrix's characteristic polynomial. -/
theorem C7_custom_hamiltonian :
    (∀ s : String,
      str_lower s ∉ (["pauli_x", "pauli_y", "pauli_z"] : List String) →
      ∃ msg, solve_custom_hamiltonian s = CustomResult.error msg) ∧
    (∀ s : String, str_lower s ∈ (["pauli_x", "pauli_y", "pauli_z"] : List String) →
      solve_custom_hamiltonian s = CustomResult.ok [-1, 1] (-1) [1] 1) ∧
    List.Sorted (· ≤ ·) ([(-1 : ℝ), 1]) ∧
    (∀ x : ℝ, (PAULI_Z - (x : ℂ) • 1).det = 0 ↔ (x = -1 ∨ x = 1)) ∧
    (∀ x : ℝ, (PAULI_X - (x : ℂ) • 1).det = 0 ↔ (x = -1 ∨ x = 1)) ∧
    (∀ x : ℝ, (PAULI_Y - (x : ℂ) • 1).det = 0 ↔ (x = -1 ∨ x = 1)) := by
  have h4 : Real.sqrt 4 = 2 := by
    rw [show (4 : ℝ) = 2 ^ 2 by norm_num, Real.sqrt_sq (by norm_num)]
  have hz : eigh_eigenvalues2 PAULI_Z = [-1, 1] := by
    unfold eigh_eigenvalues2
    norm_num [PAULI_Z, h4]
  have hx : eigh_eigenvalues2 PAULI_X = [-1, 1] := by
    unfold eigh_eigenvalues2
    norm_num [PAULI_X, h4]
  have hy : eigh_eigenvalues2 PAULI_Y = [-1, 1] := by
    unfold eigh_eigenvalues2
    norm_num [PAULI_Y, h4, Complex.I_re, Complex.I_im]
  have hres : ∀ H : Matrix (Fin 2) (Fin 2) ℂ, eigh_eigenvalues2 H = [-1, 1] →
      eigh_result H = CustomResult.ok [-1, 1] (-1) [1] 1 := by
    intro H hH
    unfold eigh_result
    rw [hH]
    norm_num [List.countP_cons, List.countP_nil]
  refine ⟨?_, ?_, ?_, ?_, ?_, ?_⟩
  · intro s hs
    simp only [List.mem_cons, List.mem_singleton, List.not_mem_nil, or_false,
      not_or] at hs
    rw [solve_custom_hamiltonian, if_neg hs.2.2, if_neg hs.1, if_neg hs.2.1]
    exact ⟨_, rfl⟩
  · intro s hs
    simp only [List.mem_cons, List.mem_singleton, List.not_mem_nil, or_false] at hs
    rcases hs with hsx | hsy | hsz
    · rw [solve_custom_hamiltonian]
      rw [if_neg (by rw [hsx]; decide), if_pos hsx]
      exact hres _ hx
    · rw [solve_custom_hamiltonian]
      rw [if_neg (by rw [hsy]; decide), if_neg (by rw [hsy]; decide), if_pos hsy]
      exact hres _ hy
    · rw [solve_custom_hamiltonian, if_pos hsz]
      exact hres _ hz
  · norm_num [List.sorted_cons]
  · intro x
    have hdet : (PAULI_Z - (x : ℂ) • 1).det = ((1 : ℂ) - x) * (-1 - x) := by
      simp [Matrix.det_fin_two, PAULI_Z, Matrix.smul_apply, Matrix.one_apply,
        Matrix.sub_apply, Matrix.vecHead, Matrix.vecTail]
    rw [hdet, mul_eq_zero]
    constructor
    · rintro (h3 | h3)
      · right
        exact_mod_cast (by linear_combination -h3 : (x : ℂ) = 1)
      · left
        exact_mod_cast (by linear_combination -h3 : (x : ℂ) = -1)
    · rintro (rfl | rfl)
      · right
        push_cast
        ring
      · left
        push_cast
        ring
  · intro x
    have hdet : (PAULI_X - (x : ℂ) • 1).det = ((x : ℂ) - 1) * (x + 1) := by
      simp [Matrix.det_fin_two, PAULI_X, Matrix.smul_apply, Matrix.one_apply,
        Matrix.sub_apply, Matrix.vecHead, Matrix.vecTail]
      all_goals ring1
    rw [hdet, mul_eq_zero]
    constructor
    · rintro (h3 | h3)
      · right
        exact_mod_cast (by linear_combination h3 : (x : ℂ) = 1)
      · left
        exact_mod_cast (by linear_combination h3 : (x : ℂ) = -1)
    · rintro (rfl | rfl)
      · right
        push_cast
        ring
      · left
        push_cast
        ring
  · intro x
    have hdet : (PAULI_Y - (x : ℂ) • 1).det = ((x : ℂ) - 1) * (x + 1) := by
      simp [Matrix.det_fin_two, PAULI_Y, Matrix.smul_apply, Matrix.one_apply,
        Matrix.sub_apply, Matrix.vecHead, Matrix.vecTail]
      all_goals ring1
    rw [hdet, mul_eq_zero]
    constructor
    · rintro (h3 | h3)
      · right
        exact_mod_cast (by linear_combination h3 : (x : ℂ) = 1)
      · left
        exact_mod_cast (by linear_combination h3 : (x : ℂ) = -1)
    · rintro (rfl | rfl)
      · right
        push_cast
        ring
      · left
        push_cast
        ring

theorem C7_custom_hamiltonian_witness :
    str_lower "ising" ∉ (["pauli_x", "pauli_y", "pauli_z"] : List String) ∧
    (∃ msg, solve_custom_hamiltonian "ising" = CustomResult.error msg) ∧
    str_lower "PAULI_Z" ∈ (["pauli_x", "pauli_y", "pauli_z"] : List String) ∧
    solve_custom_hamiltonian "PAULI_Z" = CustomResult.ok [-1, 1] (-1) [1] 1 :=
  ⟨by decide, C7_custom_hamiltonian.1 "ising" (by decide), by decide,
    C7_custom_hamiltonian.2.1 "PAULI_Z" (by decide)⟩

lemma norm_of_pair (a b : ℂ) :
    norm_of [a, b] = Real.sqrt (Complex.normSq a + Complex.normSq b) := by
  simp [norm_of]

lemma bloch_formula (a b : ℂ) (h : norm_of [a, b] ≠ 0) :
    state_to_bloch_vector [a, b] = Except.ok
      (2 * (((starRingEnd ℂ) a * b).re / (Complex.normSq a + Complex.normSq b)),
       2 * (((starRingEnd ℂ) a * b).im / (Complex.normSq a + Complex.normSq b)),
       (Complex.normSq a - Complex.normSq b) /
         (Complex.normSq a + Complex.normSq b)) := by
  have hN0 : 0 ≤ Complex.normSq a + Complex.normSq b := by
    have := Complex.normSq_nonneg a
    have := Complex.normSq_nonneg b
    linarith
  have hNne : Complex.normSq a + Complex.normSq b ≠ 0 := by
    intro hN
    apply h
    rw [norm_of_pair, hN, Real.sqrt_zero]
  set r := norm_of [a, b] with hr
  have hrsq : r * r = Complex.normSq a + Complex.normSq b := by
    rw [hr, norm_of_pair]
    exact Real.mul_self_sqrt hN0
  have hrne : (r : ℂ) ≠ 0 := by
    exact_mod_cast h
  rw [state_to_bloch_vector]
  rw [if_neg (by norm_num)]
  rw [normalize_state, if_neg h]
  have hmap : ([a, b].map fun z => z / (norm_of [a, b] : ℂ)) =
      [a / (r : ℂ), b / (r : ℂ)] := by
    simp [hr]
  rw [hmap]
  have hs0 : ([a / (r : ℂ), b / (r : ℂ)].getD 0 0) = a / (r : ℂ) := rfl
  have hs1 : ([a / (r : ℂ), b / (r : ℂ)].getD 1 0) = b / (r : ℂ) := rfl
  simp only [hs0, hs1]
  have hprod : (starRingEnd ℂ) (a / (r : ℂ)) * (b / (r : ℂ)) =
      (starRingEnd ℂ) a * b / ((Complex.normSq a + Complex.normSq b : ℝ) : ℂ) := by
    rw [map_div₀, Complex.conj_ofReal, div_mul_div_comm, ← Complex.ofReal_mul,
      hrsq]
  have habs : ∀ z : ℂ, Complex.abs (z / (r : ℂ)) ^ 2 =
      Complex.normSq z / (Complex.normSq a + Complex.normSq b) := by
    intro z
    rw [Complex.sq_abs, Complex.normSq_div, Complex.normSq_ofReal, ← hrsq]
  rw [hprod]
  simp only [Except.ok.injEq, Prod.mk.injEq]
  refine ⟨?_, ?_, ?_⟩
  · rw [Complex.div_ofReal_re]
  · rw [Complex.div_ofReal_im]
  · rw [habs a, habs b]
    ring

/-- C10: `state_to_bloch_vector` normalises internally, so it is invariant
under multiplication of the state by any nonzero complex scalar; the returned
vector lies on the unit sphere; and the zero state of length 2 fails with the
zero-norm error (not the dimension error). -/
theorem C10_bloch_scale_invariance (a b c : ℂ) (h : norm_of [a, b] ≠ 0)
    (hc : c ≠ 0) :
    state_to_bloch_vector [c * a, c * b] = state_to_bloch_vector [a, b] ∧
    (∃ x y z, state_to_bloch_vector [a, b] = Except.ok (x, y, z) ∧
      x ^ 2 + y ^ 2 + z ^ 2 = 1) ∧
    state_to_bloch_vector [(0 : ℂ), 0] = Except.error QuantumError.zeroNormError ∧
    QuantumError.zeroNormError ≠ QuantumError.dimensionError := by
  have hcs : Complex.normSq c ≠ 0 := by
    simpa [Complex.normSq_eq_zero] using hc
  have hN0 : 0 ≤ Complex.normSq a + Complex.normSq b := by
    have := Complex.normSq_nonneg a
    have := Complex.normSq_nonneg b
    linarith
  have hNne : Complex.normSq a + Complex.normSq b ≠ 0 := by
    intro hN
    apply h
    rw [norm_of_pair, hN, Real.sqrt_zero]
  have hc2 : norm_of [c * a, c * b] ≠ 0 := by
    rw [norm_of_pair]
    intro h2
    have h3 := (Real.sqrt_eq_zero (by
      have := Complex.normSq_nonneg (c * a)
      have := Complex.normSq_nonneg (c * b)
      linarith)).mp h2
    rw [Complex.normSq_mul, Complex.normSq_mul] at h3
    have h4 : Complex.normSq c * (Complex.normSq a + Complex.normSq b) = 0 := by
      linarith
    rcases mul_eq_zero.mp h4 with h5 | h5
    · exact hcs h5
    · exact hNne h5
  refine ⟨?_, ?_, ?_, by simp⟩
  · rw [bloch_formula a b h, bloch_formula (c * a) (c * b) hc2]
    have hNc : Complex.normSq (c * a) + Complex.normSq (c * b) =
        Complex.normSq c * (Complex.normSq a + Complex.normSq b) := by
      rw [Complex.normSq_mul, Complex.normSq_mul]
      ring
    have hprodc : (starRingEnd ℂ) (c * a) * (c * b) =
        ((Complex.normSq c : ℝ) : ℂ) * ((starRingEnd ℂ) a * b) := by
      rw [map_mul (starRingEnd ℂ) c a]
      linear_combination ((starRingEnd ℂ) a * b) *
        (by rw [mul_comm, Complex.mul_conj] :
          (starRingEnd ℂ) c * c = ((Complex.normSq c : ℝ) : ℂ))
    have hsub : Complex.normSq (c * a) - Complex.normSq (c * b) =
        Complex.normSq c * (Complex.normSq a - Complex.normSq b) := by
      rw [Complex.normSq_mul, Complex.normSq_mul]
      ring
    rw [hNc, hprodc, hsub]
    simp only [Except.ok.injEq, Prod.mk.injEq]
    refine ⟨?_, ?_, ?_⟩
    · rw [Complex.re_ofReal_mul, mul_div_mul_left _ _ hcs]
    · rw [Complex.im_ofReal_mul, mul_div_mul_left _ _ hcs]
    · rw [mul_div_mul_left _ _ hcs]
  · refine ⟨_, _, _, bloch_formula a b h, ?_⟩
    field_simp
    simp only [Complex.normSq_apply]
    ring_nf
  · rw [state_to_bloch_vector]
    rw [if_neg (by norm_num)]
    rw [normalize_state, if_pos (by rw [norm_of_pair]; simp)]

theorem C10_bloch_scale_invariance_witness :
    norm_of [(1 : ℂ), 0] ≠ 0 ∧ (2 : ℂ) ≠ 0 ∧
    state_to_bloch_vector [(2 : ℂ) * 1, 2 * 0] = state_to_bloch_vector [(1 : ℂ), 0] ∧
    (∃ x y z, state_to_bloch_vector [(1 : ℂ), 0] = Except.ok (x, y, z) ∧
      x ^ 2 + y ^ 2 + z ^ 2 = 1) := by
  have h1 : norm_of [(1 : ℂ), 0] ≠ 0 := by
    rw [norm_of_pair]
    norm_num
  have h2 : (2 : ℂ) ≠ 0 := by norm_num
  obtain ⟨hinv, hunit, -, -⟩ := C10_bloch_scale_invariance 1 0 2 h1 h2
  exact ⟨h1, h2, hinv, hunit⟩

lemma expand_H0_eq : expand_single_qubit_gate 2 HADAMARD 0 =
    ((Real.sqrt 2 : ℂ))⁻¹ •
      !![1, 1, 0, 0; 1, -1, 0, 0; 0, 0, 1, 1; 0, 0, 1, -1] := by
  ext i j
  fin_cases i <;> fin_cases j <;>
    simp +decide [expand_single_apply, clear1, bit_at, bitF, HADAMARD,
      Matrix.smul_apply, Matrix.vecHead, Matrix.vecTail,
      show ((0 : Fin (2 ^ 2)) : ℕ) = 0 from rfl,
      show ((1 : Fin (2 ^ 2)) : ℕ) = 1 from rfl,
      show ((2 : Fin (2 ^ 2)) : ℕ) = 2 from rfl,
      show ((3 : Fin (2 ^ 2)) : ℕ) = 3 from rfl]

lemma expand_CNOT01_eq : expand_two_qubit_gate 2 CNOT_GATE 0 1 =
    !![1, 0, 0, 0; 0, 0, 0, 1; 0, 0, 1, 0; 0, 1, 0, 0] := by
  ext i j
  fin_cases i <;> fin_cases j <;> rfl

/-- C4: the Bell-state preparation circuit `[H(0), CNOT(0,1)]` applied to
`|00⟩` produces the state `(|00⟩ + |11⟩)/√2`, per-basis probabilities
`[0.5, 0, 0, 0.5]` over basis order `00, 01, 10, 11`, and fidelity `1`
against `(|00⟩+|11⟩)/√2`; `create_bell_state()` returns exactly these
values. -/
theorem C4_bell_state :
    ∃ r, create_bell_state = some r ∧
      r.final_state = ![((Real.sqrt 2 : ℂ))⁻¹, 0, 0, ((Real.sqrt 2 : ℂ))⁻¹] ∧
      r.probabilities = ![1 / 2, 0, 0, 1 / 2] ∧
      r.fidelity_with_bell = 1 := by
  have hs2 : (Real.sqrt 2 : ℝ) ≠ 0 := by positivity
  have hs2c : ((Real.sqrt 2 : ℝ) : ℂ) ≠ 0 := by exact_mod_cast hs2
  have hmul : ((Real.sqrt 2 : ℝ) : ℂ) * ((Real.sqrt 2 : ℝ) : ℂ) = 2 := by
    rw [← Complex.ofReal_mul, Real.mul_self_sqrt (by norm_num)]
    norm_num
  have hU : get_unitary (((QuantumCircuit.init 2).h 0).cnot 0 1) =
      some (expand_two_qubit_gate 2 CNOT_GATE 0 1 *
        (expand_single_qubit_gate 2 HADAMARD 0 * 1)) := by
    simp [get_unitary, get_gate_matrix, QuantumCircuit.init, QuantumCircuit.h,
      QuantumCircuit.cnot, QuantumCircuit.add_gate]
  have hfinal : (expand_two_qubit_gate 2 CNOT_GATE 0 1 *
      (expand_single_qubit_gate 2 HADAMARD 0 * 1)).mulVec ![1, 0, 0, 0] =
      ![((Real.sqrt 2 : ℂ))⁻¹, 0, 0, ((Real.sqrt 2 : ℂ))⁻¹] := by
    rw [Matrix.mul_one, ← Matrix.mulVec_mulVec, expand_H0_eq, expand_CNOT01_eq]
    ext k
    fin_cases k <;>
      simp [Matrix.mulVec, Matrix.dotProduct, Fin.sum_univ_four,
        Matrix.smul_apply, Matrix.vecHead, Matrix.vecTail, smul_eq_mul]
  unfold create_bell_state
  dsimp only
  rw [hU, Option.map_some']
  refine ⟨_, rfl, ?_, ?_, ?_⟩
  · exact hfinal
  · dsimp only
    funext i
    rw [hfinal]
    fin_cases i <;>
      simp [Matrix.vecHead, Matrix.vecTail, map_inv₀, Complex.abs_ofReal]
  · dsimp only
    rw [hfinal]
    have hsum : (∑ i, (starRingEnd ℂ)
        ((![((Real.sqrt 2 : ℂ))⁻¹, 0, 0, ((Real.sqrt 2 : ℂ))⁻¹]) i) *
          (![1, 0, 0, 1] i / (Real.sqrt 2 : ℂ))) = 1 := by
      rw [Fin.sum_univ_four]
      simp only [Matrix.cons_val_zero, Matrix.cons_val_one, Matrix.head_cons,
        Matrix.cons_val_two, Matrix.cons_val_three, Matrix.vecHead,
        Matrix.vecTail, Matrix.cons_val_succ, Function.comp_apply, map_inv₀,
        Complex.conj_ofReal, map_zero, zero_mul, mul_zero, add_zero, zero_div,
        zero_add]
      rw [one_div, ← mul_inv, hmul]
      norm_num
    rw [hsum]
    simp
